import Mathlib

/-!
Verification of the adxl345-prod firmware core against its specification.

The C sources are shallowly embedded: pure C functions become Lean
functions over `Nat`/`Int`/`List Char`, stateful modules become explicit
state-passing functions, and machine integer overflow is made explicit
with `% 2 ^ w` where it matters.  Each embedded definition keeps the name
of the C function it translates (`Core/Src/...`), and each claim of the
specification is settled by one theorem below the definitions.
-/

set_option maxHeartbeats 1000000
set_option maxRecDepth 8000

/-! ## Sensor_SnapODR (Core/Src/sensor_hal.c)

```c
uint32_t Sensor_SnapODR(uint32_t req) {
    if (req >= 3200) return 3200;
    if (req >= 1600) return 1600;
    if (req >= 800) return 800;
    if (req >= 400) return 400;
    if (req >= 200) return 200;
    return 100;
}
```
-/

def Sensor_SnapODR (req : ℕ) : ℕ :=
  if req ≥ 3200 then 3200
  else if req ≥ 1600 then 1600
  else if req ≥ 800 then 800
  else if req ≥ 400 then 400
  else if req ≥ 200 then 200
  else 100

/-- The supported output data rates of the sensor. -/
def supportedODR : List ℕ := [100, 200, 400, 800, 1600, 3200]

/-- C2 (counterexample): the claim says every requested ODR snaps *up* to the
smallest supported value that is ≥ the request, so a request of 150 would have
to yield a value ≥ 150 (namely 200).  The code yields 100. -/
theorem snapODR_not_snap_up : ¬ (150 ≤ Sensor_SnapODR 150) := by decide

/-- C2 (amended): `Sensor_SnapODR` snaps *down*: it returns the largest
supported value that is ≤ the request, clamping requests below 100 up to
100 (and, in particular, requests above 3200 yield 3200). -/
theorem snapODR_snaps_down (req : ℕ) :
    Sensor_SnapODR req ∈ supportedODR ∧
    (req < 100 → Sensor_SnapODR req = 100) ∧
    (100 ≤ req → Sensor_SnapODR req ≤ req ∧
      ∀ s ∈ supportedODR, s ≤ req → s ≤ Sensor_SnapODR req) := by
  unfold Sensor_SnapODR supportedODR
  split_ifs with h1 h2 h3 h4 h5 <;>
    refine ⟨by simp, by omega, fun h => ⟨by omega, ?_⟩⟩ <;>
    intro s hs hsr <;> fin_cases hs <;> omega

/-- C2 witness: instantiation of the amended snap theorem at 801 (the
claim's own example input: the code snaps 801 down to 800, not up to 1600). -/
theorem snapODR_snaps_down_witness :
    Sensor_SnapODR 801 ∈ supportedODR ∧ Sensor_SnapODR 801 ≤ 801 :=
  ⟨(snapODR_snaps_down 801).1, ((snapODR_snaps_down 801).2.2 (by decide)).1⟩

/-! ## api_parse_u32 (Core/Src/api_parse.c)

The C parser walks a NUL-terminated byte string.  We embed it over
`List Char`, the bytes from the current pointer onwards; the empty list
plays the role of the terminating NUL.

```c
static inline const char* skip_ws(const char* s) {
    while (*s == ' ' || *s == '\t') { ++s; }
    return s;
}
static inline int is_term_or_eol(char c) {
    return (c == 0) || (c == ',') || (c == ' ') || (c == '\t') || (c == '\r') || (c == '\n');
}
int api_parse_u32(const char* s, uint32_t* out) {
    if (!s || !out) return 0;
    s = skip_ws(s);
    uint32_t acc = 0; int nd = 0;
    while (*s >= '0' && *s <= '9') {
        uint32_t d = (uint32_t)(*s - '0');
        if (acc > 429496729U || (acc == 429496729U && d > 5U)) return 0;
        acc = acc * 10U + d;
        ++s; ++nd;
    }
    if (nd == 0) return 0;
    s = skip_ws(s);
    if (!is_term_or_eol(*s)) return 0;
    *out = acc;
    return 1;
}
```
-/

def isWsChar (c : Char) : Bool := c = ' ' || c = '\t'

def isDigitCh (c : Char) : Bool := '0' ≤ c && c ≤ '9'

def isTermChar (c : Char) : Bool :=
  c = ',' || c = ' ' || c = '\t' || c = '\r' || c = '\n'

def skip_ws : List Char → List Char
  | [] => []
  | c :: cs => if isWsChar c then skip_ws cs else c :: cs

/-- `is_term_or_eol(*s)` on the remaining bytes; `[]` is the NUL case. -/
def is_term_or_eol : List Char → Bool
  | [] => true
  | c :: _ => isTermChar c

/-- The digit-accumulation loop of `api_parse_u32`: returns the accumulator,
the digit count, and the unconsumed remainder, or `none` on 32-bit overflow. -/
def u32Loop : List Char → ℕ → ℕ → Option (ℕ × ℕ × List Char)
  | [], acc, nd => some (acc, nd, [])
  | c :: cs, acc, nd =>
    if isDigitCh c then
      let d := c.toNat - '0'.toNat
      if acc > 429496729 ∨ (acc = 429496729 ∧ d > 5) then none
      else u32Loop cs (acc * 10 + d) (nd + 1)
    else some (acc, nd, c :: cs)

def api_parse_u32 (s : List Char) : Option ℕ :=
  match u32Loop (skip_ws s) 0 0 with
  | none => none
  | some (acc, nd, rest) =>
    if nd = 0 then none
    else if is_term_or_eol (skip_ws rest) then some acc
    else none

/-- Numeric value of a decimal digit string (most significant digit first). -/
def digitsVal (ds : List Char) : ℕ :=
  ds.foldl (fun a c => a * 10 + (c.toNat - '0'.toNat)) 0

-- Basic facts used to decompose the parser's run.

theorem skip_ws_eq_dropWhile (cs : List Char) :
    skip_ws cs = cs.dropWhile isWsChar := by
  induction cs with
  | nil => rfl
  | cons c cs ih =>
    by_cases h : isWsChar c
    · simp [skip_ws, h, List.dropWhile_cons, ih]
    · simp [skip_ws, h, List.dropWhile_cons]

theorem skip_ws_append_of_ws (w cs : List Char) (hw : ∀ c ∈ w, isWsChar c) :
    skip_ws (w ++ cs) = skip_ws cs := by
  induction w with
  | nil => rfl
  | cons c w ih =>
    have hc : isWsChar c := hw c (by simp)
    simp only [List.cons_append, skip_ws, hc, if_true]
    exact ih fun x hx => hw x (by simp [hx])

theorem skip_ws_of_head_not_ws (cs : List Char)
    (h : cs = [] ∨ ¬ isWsChar (cs.headD ' ')) : skip_ws cs = cs := by
  rcases h with h | h
  · simp [h, skip_ws]
  · cases cs with
    | nil => rfl
    | cons c cs => simp only [List.headD_cons] at h; simp [skip_ws, h]

theorem digitsVal_foldl (ds : List Char) (a : ℕ) :
    ds.foldl (fun a c => a * 10 + (c.toNat - '0'.toNat)) a
      = a * 10 ^ ds.length + digitsVal ds := by
  induction ds generalizing a with
  | nil => simp [digitsVal]
  | cons c ds ih =>
    simp only [List.foldl_cons, List.length_cons, digitsVal] at *
    rw [ih, ih (0 * 10 + (c.toNat - '0'.toNat))]
    ring

theorem ws_cases {c : Char} (h : isWsChar c = true) : c = ' ' ∨ c = '\t' := by
  simpa [isWsChar] using h

theorem term_cases {c : Char} (h : isTermChar c = true) :
    c = ',' ∨ c = ' ' ∨ c = '\t' ∨ c = '\r' ∨ c = '\n' := by
  have := h
  simp only [isTermChar, Bool.or_eq_true, decide_eq_true_eq] at this
  tauto

theorem ws_not_digit {c : Char} (h : isWsChar c = true) : ¬ isDigitCh c = true := by
  rcases ws_cases h with rfl | rfl <;> decide

theorem term_not_digit {c : Char} (h : isTermChar c = true) : ¬ isDigitCh c = true := by
  rcases term_cases h with rfl | rfl | rfl | rfl | rfl <;> decide

theorem digit_toNat {c : Char} (h : isDigitCh c = true) :
    48 ≤ c.toNat ∧ c.toNat ≤ 57 := by
  simp [isDigitCh, Char.le_def] at h
  exact h

theorem mem_takeWhile {p : Char → Bool} {l : List Char} :
    ∀ c ∈ l.takeWhile p, p c = true := by
  induction l with
  | nil => simp
  | cons a l ih =>
    intro c hc
    by_cases h : p a
    · rw [List.takeWhile_cons_of_pos h] at hc
      rcases List.mem_cons.mp hc with rfl | hc
      · exact h
      · exact ih c hc
    · rw [List.takeWhile_cons_of_neg h] at hc
      cases hc

theorem dropWhile_head_not (p : Char → Bool) (l : List Char) :
    l.dropWhile p = [] ∨ ¬ p ((l.dropWhile p).headD ' ') = true := by
  induction l with
  | nil => simp
  | cons a l ih =>
    by_cases h : p a
    · simpa [List.dropWhile_cons, h] using ih
    · simp [List.dropWhile_cons, h]

/-- Behaviour of the digit loop on a digit run `ds` followed by a
non-digit remainder: it either accumulates the full value or fails on the
exact 32-bit overflow boundary. -/
theorem u32Loop_spec (ds : List Char) (rest : List Char) (acc nd : ℕ)
    (hds : ∀ c ∈ ds, isDigitCh c = true)
    (hrest : rest = [] ∨ ¬ isDigitCh (rest.headD ' ') = true)
    (hacc : acc < 2 ^ 32) :
    u32Loop (ds ++ rest) acc nd =
      if acc * 10 ^ ds.length + digitsVal ds < 2 ^ 32
      then some (acc * 10 ^ ds.length + digitsVal ds, nd + ds.length, rest)
      else none := by
  induction ds generalizing acc nd with
  | nil =>
    have hcond : acc * 10 ^ ([] : List Char).length + digitsVal [] < 2 ^ 32 := by
      simp [digitsVal]; omega
    have hdv : digitsVal [] = 0 := rfl
    simp only [List.nil_append, List.length_nil, pow_zero, mul_one, hdv, Nat.add_zero]
    rw [if_pos hacc]
    rcases hrest with rfl | h
    · simp [u32Loop]
    · cases rest with
      | nil => simp [u32Loop]
      | cons c cs =>
        simp only [List.headD_cons] at h
        simp [u32Loop, h]
  | cons c ds ih =>
    have hc : isDigitCh c = true := hds c (by simp)
    have hd9 : c.toNat - '0'.toNat ≤ 9 := by
      have := digit_toNat hc
      have h0 : ('0' : Char).toNat = 48 := by decide
      omega
    have hval : digitsVal (c :: ds)
        = (c.toNat - '0'.toNat) * 10 ^ ds.length + digitsVal ds := by
      simpa [digitsVal, List.foldl_cons] using
        digitsVal_foldl ds (0 * 10 + (c.toNat - '0'.toNat))
    by_cases hov : acc > 429496729 ∨ (acc = 429496729 ∧ c.toNat - '0'.toNat > 5)
    · have hbig : 2 ^ 32 ≤ acc * 10 + (c.toNat - '0'.toNat) := by omega
      have htot : 2 ^ 32 ≤ acc * 10 ^ (ds.length + 1) + digitsVal (c :: ds) := by
        calc 2 ^ 32 ≤ acc * 10 + (c.toNat - '0'.toNat) := hbig
        _ ≤ (acc * 10 + (c.toNat - '0'.toNat)) * 10 ^ ds.length :=
            Nat.le_mul_of_pos_right _ (by positivity)
        _ = acc * 10 ^ (ds.length + 1) + (c.toNat - '0'.toNat) * 10 ^ ds.length := by ring
        _ ≤ acc * 10 ^ (ds.length + 1) + digitsVal (c :: ds) := by
            rw [hval]; omega
      simp only [List.cons_append, u32Loop, hc, if_true, List.length_cons]
      rw [if_pos hov, if_neg (by omega)]
    · have hsmall : acc * 10 + (c.toNat - '0'.toNat) < 2 ^ 32 := by omega
      have hrec := ih (acc * 10 + (c.toNat - '0'.toNat)) (nd + 1)
        (fun x hx => hds x (by simp [hx])) hsmall
      simp only [List.cons_append, u32Loop, hc, if_true, List.length_cons, List.append_eq]
      rw [if_neg hov, hrec, hval]
      have heq : (acc * 10 + (c.toNat - '0'.toNat)) * 10 ^ ds.length + digitsVal ds
          = acc * 10 ^ (ds.length + 1)
            + ((c.toNat - '0'.toNat) * 10 ^ ds.length + digitsVal ds) := by ring
      rw [heq]
      by_cases hfit : acc * 10 ^ (ds.length + 1)
          + ((c.toNat - '0'.toNat) * 10 ^ ds.length + digitsVal ds) < 2 ^ 32
      · rw [if_pos hfit, if_pos hfit]
        have hnd : nd + 1 + ds.length = nd + (ds.length + 1) := by omega
        rw [hnd]
      · rw [if_neg hfit, if_neg hfit]

theorem skip_ws_of_digit_head (ds rest : List Char)
    (hne : ds ≠ []) (hdig : ∀ c ∈ ds, isDigitCh c = true) :
    skip_ws (ds ++ rest) = ds ++ rest := by
  cases ds with
  | nil => exact absurd rfl hne
  | cons c t =>
    have hc : isDigitCh c = true := hdig c (by simp)
    have hw : isWsChar c = false := by
      by_contra h
      exact ws_not_digit (by simpa using h) hc
    simp [skip_ws, hw]


/-- C4: `api_parse_u32` accepts exactly the byte strings consisting of
optional leading spaces/tabs, one or more decimal digits whose value fits in
32 bits, optional trailing spaces/tabs (the maximal such run), and then a
terminator (end of string standing for NUL, comma, space, tab, CR or LF),
returning the digits' value; and every all-digit string denoting a value
greater than 4294967295 fails. -/
theorem api_parse_u32_spec :
    (∀ cs v, api_parse_u32 cs = some v ↔
      ∃ w1 ds w2 rest, cs = w1 ++ ds ++ w2 ++ rest ∧
        (∀ c ∈ w1, isWsChar c = true) ∧ (∀ c ∈ w2, isWsChar c = true) ∧
        ds ≠ [] ∧ (∀ c ∈ ds, isDigitCh c = true) ∧
        digitsVal ds = v ∧ v < 2 ^ 32 ∧
        (rest = [] ∨ (isWsChar (rest.headD ' ') = false ∧
                      isTermChar (rest.headD ' ') = true))) ∧
    (∀ ds, ds ≠ [] → (∀ c ∈ ds, isDigitCh c = true) → 2 ^ 32 ≤ digitsVal ds →
      api_parse_u32 ds = none) := by
  constructor
  · intro cs v
    set w1 := cs.takeWhile isWsChar with hw1
    set s1 := cs.dropWhile isWsChar with hs1
    set ds := s1.takeWhile isDigitCh with hds
    set r := s1.dropWhile isDigitCh with hr
    set w2 := r.takeWhile isWsChar with hw2
    set rest := r.dropWhile isWsChar with hrest
    have hsplit1 : cs = w1 ++ s1 := (List.takeWhile_append_dropWhile isWsChar cs).symm
    have hsplit2 : s1 = ds ++ r := (List.takeWhile_append_dropWhile isDigitCh s1).symm
    have hsplit3 : r = w2 ++ rest := (List.takeWhile_append_dropWhile isWsChar r).symm
    have hkey : u32Loop (skip_ws cs) 0 0 =
        if digitsVal ds < 2 ^ 32 then some (digitsVal ds, ds.length, r) else none := by
      rw [skip_ws_eq_dropWhile, ← hs1, hsplit2]
      rw [u32Loop_spec ds r 0 0 mem_takeWhile (dropWhile_head_not _ _) (by norm_num)]
      simp
    have hterm_eq : skip_ws r = rest := by rw [skip_ws_eq_dropWhile, hrest]
    constructor
    · intro hp
      unfold api_parse_u32 at hp
      by_cases hfit : digitsVal ds < 2 ^ 32
      · rw [hkey, if_pos hfit] at hp
        simp only [hterm_eq] at hp
        by_cases hnil : ds.length = 0
        · rw [if_pos hnil] at hp; cases hp
        · rw [if_neg hnil] at hp
          by_cases ht : is_term_or_eol rest = true
          · rw [if_pos ht] at hp
            refine ⟨w1, ds, w2, rest, ?_, mem_takeWhile, mem_takeWhile,
              ?_, mem_takeWhile, Option.some.inj hp, ?_, ?_⟩
            · rw [hsplit1, hsplit2, hsplit3]; simp [List.append_assoc]
            · intro h; rw [h] at hnil; exact hnil rfl
            · rw [← Option.some.inj hp]; exact hfit
            · cases hrc : rest with
              | nil => exact Or.inl rfl
              | cons a t =>
                right
                have hhead : ¬ isWsChar ((a :: t).headD ' ') = true := by
                  rcases dropWhile_head_not isWsChar r with h0 | h0
                  · rw [← hrest] at h0; rw [h0] at hrc; cases hrc
                  · rw [← hrest] at h0; rw [hrc] at h0; exact h0
                refine ⟨by simpa using hhead, ?_⟩
                rw [hrc] at ht
                simpa [is_term_or_eol] using ht
          · rw [if_neg ht] at hp; cases hp
      · rw [hkey, if_neg hfit] at hp; cases hp
    · rintro ⟨v1, es, v2, tail, hcs, hv1, hv2, hne, hdig, hval, hlt, htl⟩
      have hv1' : skip_ws cs = es ++ (v2 ++ tail) := by
        rw [hcs, List.append_assoc, List.append_assoc]
        rw [skip_ws_append_of_ws v1 _ hv1]
        exact skip_ws_of_digit_head es (v2 ++ tail) hne hdig
      have htail_nd : v2 ++ tail = [] ∨ ¬ isDigitCh ((v2 ++ tail).headD ' ') = true := by
        cases hv2c : v2 with
        | cons a t =>
          right
          have ha : isWsChar a = true := hv2 a (by rw [hv2c]; simp)
          simpa using ws_not_digit ha
        | nil =>
          simp only [List.nil_append]
          rcases htl with rfl | ⟨hnw, htc⟩
          · exact Or.inl rfl
          · cases tail with
            | nil => exact Or.inl rfl
            | cons a t => right; simpa using term_not_digit (by simpa using htc)
      have hloop := u32Loop_spec es (v2 ++ tail) 0 0 hdig htail_nd (by norm_num)
      unfold api_parse_u32
      rw [hv1', hloop]
      rw [if_pos (by simpa [hval] using hlt)]
      simp only [zero_mul, zero_add, Nat.zero_add]
      have hlen : es.length ≠ 0 := by
        intro h; exact hne (List.length_eq_zero.mp h)
      rw [if_neg hlen]
      have hs2 : skip_ws (v2 ++ tail) = tail := by
        rw [skip_ws_append_of_ws v2 tail hv2]
        apply skip_ws_of_head_not_ws
        rcases htl with rfl | ⟨hnw, _⟩
        · exact Or.inl rfl
        · exact Or.inr (by simpa using hnw)
      rw [hs2]
      have hts : is_term_or_eol tail = true := by
        rcases htl with rfl | ⟨_, htc⟩
        · rfl
        · cases tail with
          | nil => rfl
          | cons a t => simpa [is_term_or_eol] using htc
      rw [if_pos hts, hval]
  · intro ds hne hdig hover
    unfold api_parse_u32
    have hskip : skip_ws ds = ds := by
      have := skip_ws_of_digit_head ds [] hne hdig
      simpa using this
    have hloop := u32Loop_spec ds [] 0 0 hdig (Or.inl rfl) (by norm_num)
    rw [List.append_nil] at hloop
    rw [hskip, hloop, if_neg (by omega)]

/-- C4 witness: the parser accepts `"42,"` (value 42) by the acceptance
characterization, and rejects the all-digit string `"4294967296"`
(= 2^32) by the overflow part. -/
theorem api_parse_u32_spec_witness :
    api_parse_u32 ['4', '2', ','] = some 42 ∧
    api_parse_u32 ['4', '2', '9', '4', '9', '6', '7', '2', '9', '6'] = none :=
  ⟨(api_parse_u32_spec.1 ['4', '2', ','] 42).mpr
      ⟨[], ['4', '2'], [], [','], rfl, by decide, by decide, by decide,
        by decide, by decide, by decide,
        Or.inr ⟨by decide, by decide⟩⟩,
    api_parse_u32_spec.2 ['4', '2', '9', '4', '9', '6', '7', '2', '9', '6']
      (by decide) (by decide) (by decide)⟩

/-! ## CRC-16/CCITT-FALSE (Core/Inc/protocol_crc16.h)

```c
static inline uint16_t proto_crc16_update_byte(uint16_t crc, uint8_t b) {
    crc ^= ((uint16_t)b) << 8;
    for (uint8_t i = 0; i < 8; ++i) {
        if (crc & 0x8000u) crc = (uint16_t)((crc << 1) ^ PROTO_CRC16_POLY);
        else               crc = (uint16_t)(crc << 1);
    }
    return crc;
}
```
`uint16_t` truncation is made explicit with `% 65536`; bytes are naturals
below 256.  `proto_crc16_buf` is init `0xFFFF`, update over the buffer,
final = identity (xor-out 0). -/

def PROTO_CRC16_POLY : ℕ := 0x1021

def PROTO_CRC16_INIT : ℕ := 0xFFFF

/-- The 8-iteration shift/xor loop of `proto_crc16_update_byte`. -/
def crcShiftLoop : ℕ → ℕ → ℕ
  | 0, crc => crc
  | k + 1, crc =>
    crcShiftLoop k
      (if crc &&& 0x8000 ≠ 0 then ((crc <<< 1) ^^^ PROTO_CRC16_POLY) % 65536
       else (crc <<< 1) % 65536)

def proto_crc16_update_byte (crc b : ℕ) : ℕ :=
  crcShiftLoop 8 (crc ^^^ (b <<< 8))

def proto_crc16_update (crc : ℕ) (data : List ℕ) : ℕ :=
  data.foldl proto_crc16_update_byte crc

def proto_crc16_buf (data : List ℕ) : ℕ :=
  proto_crc16_update PROTO_CRC16_INIT data

/-- Independent reference definition of CRC-16/CCITT-FALSE: the message is
processed one bit at a time, most significant bit first; each bit is xored
into the top of the register, which is then shifted once, applying the
polynomial 0x1021 when the bit that fell out was set.  Init 0xFFFF, no
reflection, xor-out 0. -/
def crc16_ref_bit (crc : ℕ) (bit : Bool) : ℕ :=
  if crc.testBit 15 ≠ bit then ((crc <<< 1) % 65536) ^^^ 0x1021
  else (crc <<< 1) % 65536

/-- The bits of one byte, most significant first. -/
def byteBits (b : ℕ) : List Bool :=
  [b.testBit 7, b.testBit 6, b.testBit 5, b.testBit 4,
   b.testBit 3, b.testBit 2, b.testBit 1, b.testBit 0]

def crc16_ref (data : List ℕ) : ℕ :=
  data.foldl (fun crc b => (byteBits b).foldl crc16_ref_bit crc) 0xFFFF

-- Bitwise helper lemmas.

theorem xor_mod_two_pow (a b n : ℕ) :
    (a ^^^ b) % 2 ^ n = (a % 2 ^ n) ^^^ (b % 2 ^ n) := by
  apply Nat.eq_of_testBit_eq
  intro i
  simp [Nat.testBit_mod_two_pow, Nat.testBit_xor]
  by_cases h : i < n <;> simp [h]

theorem xor_shiftLeft (a b k : ℕ) :
    (a ^^^ b) <<< k = (a <<< k) ^^^ (b <<< k) := by
  apply Nat.eq_of_testBit_eq
  intro i
  simp [Nat.testBit_shiftLeft, Nat.testBit_xor]
  by_cases h : k ≤ i <;> simp [h]

theorem and_msb_ne_zero (x : ℕ) : (x &&& 0x8000 ≠ 0) ↔ x.testBit 15 = true := by
  have h : (0x8000 : ℕ) = 2 ^ 15 := by norm_num
  rw [h, Nat.and_two_pow]
  by_cases hx : x.testBit 15 <;> simp [hx]

theorem mod_shiftLeft_mod (a k : ℕ) :
    ((a % 65536) <<< k) % 65536 = (a <<< k) % 65536 := by
  have h : (65536 : ℕ) = 2 ^ 16 := by norm_num
  rw [h]
  apply Nat.eq_of_testBit_eq
  intro i
  simp only [Nat.testBit_mod_two_pow, Nat.testBit_shiftLeft]
  by_cases hi : i < 16 <;> by_cases hk : k ≤ i <;>
    simp [hi, hk, Nat.testBit_mod_two_pow]
  omega

theorem shiftLeft_shiftLeft (a m n : ℕ) : (a <<< m) <<< n = a <<< (m + n) := by
  simp [Nat.shiftLeft_eq, pow_add, mul_assoc]

/-- One impl-loop step on `r ^^^ m` equals one reference step on `r` with the
top bit of `m` as incoming bit, xored with `m` shifted once. -/
theorem crcStep_xor (r m : ℕ) :
    (if (r ^^^ m) &&& 0x8000 ≠ 0 then (((r ^^^ m) <<< 1) ^^^ PROTO_CRC16_POLY) % 65536
     else ((r ^^^ m) <<< 1) % 65536)
    = crc16_ref_bit r (m.testBit 15) ^^^ ((m <<< 1) % 65536) := by
  have h65536 : (65536 : ℕ) = 2 ^ 16 := by norm_num
  have hcond : ((r ^^^ m) &&& 0x8000 ≠ 0) ↔ (r.testBit 15 ≠ m.testBit 15) := by
    rw [and_msb_ne_zero, Nat.testBit_xor]
    cases hr : r.testBit 15 <;> cases hm : m.testBit 15 <;> simp
  unfold crc16_ref_bit PROTO_CRC16_POLY
  by_cases h : r.testBit 15 ≠ m.testBit 15
  · rw [if_pos (hcond.mpr h), if_pos h, xor_shiftLeft, h65536,
      xor_mod_two_pow, xor_mod_two_pow]
    have hp : (0x1021 : ℕ) % 2 ^ 16 = 0x1021 := by norm_num
    rw [hp, Nat.xor_assoc, Nat.xor_comm ((m <<< 1) % 2 ^ 16) 0x1021, ← Nat.xor_assoc]
  · rw [if_neg (fun hc => h (hcond.mp hc)), if_neg h, xor_shiftLeft, h65536,
      xor_mod_two_pow]

/-- The top bits of `m` consumed by `k` impl steps, most significant first. -/
def bitsOfTop : ℕ → ℕ → List Bool
  | 0, _ => []
  | k + 1, m => m.testBit 15 :: bitsOfTop k ((m <<< 1) % 65536)

theorem crcShiftLoop_ref (k : ℕ) : ∀ r m : ℕ, m < 65536 →
    crcShiftLoop k (r ^^^ m) =
      (bitsOfTop k m).foldl crc16_ref_bit r ^^^ ((m <<< k) % 65536) := by
  induction k with
  | zero =>
    intro r m hm
    simp [crcShiftLoop, bitsOfTop, Nat.mod_eq_of_lt hm]
  | succ k ih =>
    intro r m hm
    have hstep : crcShiftLoop (k + 1) (r ^^^ m)
        = crcShiftLoop k (crc16_ref_bit r (m.testBit 15) ^^^ ((m <<< 1) % 65536)) := by
      rw [crcShiftLoop, crcStep_xor]
    rw [hstep, ih (crc16_ref_bit r (m.testBit 15)) ((m <<< 1) % 65536)
      (Nat.mod_lt _ (by norm_num))]
    rw [bitsOfTop, List.foldl_cons]
    congr 1
    rw [mod_shiftLeft_mod, shiftLeft_shiftLeft, Nat.add_comm 1 k]

theorem bitsOfTop_step (b j : ℕ) :
    ((((b <<< j) % 65536) <<< 1) % 65536) = (b <<< (j + 1)) % 65536 := by
  rw [mod_shiftLeft_mod, shiftLeft_shiftLeft]

theorem testBit15_shifted (b j : ℕ) (h2 : j ≤ 15) :
    ((b <<< j) % 65536).testBit 15 = b.testBit (15 - j) := by
  have h : (65536 : ℕ) = 2 ^ 16 := by norm_num
  rw [h, Nat.testBit_mod_two_pow, Nat.testBit_shiftLeft]
  simp [h2]

theorem bitsOfTop_eight (b : ℕ) : bitsOfTop 8 (b <<< 8) = byteBits b := by
  have e0 : ((b : ℕ) <<< 8).testBit 15 = b.testBit 7 := by
    simp [Nat.testBit_shiftLeft]
  have c1 : bitsOfTop 8 (b <<< 8)
      = (b <<< 8).testBit 15 :: bitsOfTop 7 ((b <<< 9) % 65536) := by
    rw [bitsOfTop, shiftLeft_shiftLeft]
  rw [c1, bitsOfTop, bitsOfTop_step b 9, bitsOfTop, bitsOfTop_step b 10,
    bitsOfTop, bitsOfTop_step b 11, bitsOfTop, bitsOfTop_step b 12,
    bitsOfTop, bitsOfTop_step b 13, bitsOfTop, bitsOfTop_step b 14,
    bitsOfTop, bitsOfTop_step b 15, bitsOfTop]
  rw [e0, testBit15_shifted b 9 (by omega), testBit15_shifted b 10 (by omega),
    testBit15_shifted b 11 (by omega), testBit15_shifted b 12 (by omega),
    testBit15_shifted b 13 (by omega), testBit15_shifted b 14 (by omega),
    testBit15_shifted b 15 (by omega)]
  rfl

theorem proto_crc16_update_byte_ref (crc b : ℕ) (hb : b < 256) :
    proto_crc16_update_byte crc b = (byteBits b).foldl crc16_ref_bit crc := by
  unfold proto_crc16_update_byte
  have hm : b <<< 8 < 65536 := by
    rw [Nat.shiftLeft_eq]
    have : (2 : ℕ) ^ 8 = 256 := by norm_num
    rw [this]; omega
  rw [crcShiftLoop_ref 8 crc (b <<< 8) hm]
  have hz : ((b <<< 8) <<< 8) % 65536 = 0 := by
    rw [shiftLeft_shiftLeft, Nat.shiftLeft_eq]
    have : (2 : ℕ) ^ (8 + 8) = 65536 := by norm_num
    rw [this, Nat.mul_mod_left]
  rw [hz, Nat.xor_zero, bitsOfTop_eight]

theorem update_foldl_ref (data : List ℕ) (h : ∀ b ∈ data, b < 256) : ∀ crc,
    data.foldl proto_crc16_update_byte crc
      = data.foldl (fun crc b => (byteBits b).foldl crc16_ref_bit crc) crc := by
  induction data with
  | nil => intro _; rfl
  | cons a l ih =>
    intro crc
    simp only [List.foldl_cons]
    rw [proto_crc16_update_byte_ref crc a (h a (by simp))]
    exact ih (fun b hb => h b (by simp [hb])) _

/-- C5: for every byte sequence, `proto_crc16_buf` equals the reference
CRC-16/CCITT-FALSE definition (polynomial 0x1021, init 0xFFFF, no
reflection, xor-out 0); the incremental update composes over any split of
the buffer; and the value over the 11 bytes `"123456789\r\n"` is 0xDC92,
which the reference computes as well. -/
theorem proto_crc16_spec :
    (∀ data : List ℕ, (∀ b ∈ data, b < 256) → proto_crc16_buf data = crc16_ref data) ∧
    (∀ (pre post : List ℕ) (crc : ℕ),
      proto_crc16_update crc (pre ++ post)
        = proto_crc16_update (proto_crc16_update crc pre) post) ∧
    proto_crc16_buf [49, 50, 51, 52, 53, 54, 55, 56, 57, 13, 10] = 0xDC92 := by
  refine ⟨?_, ?_, ?_⟩
  · intro data h
    unfold proto_crc16_buf proto_crc16_update crc16_ref PROTO_CRC16_INIT
    exact update_foldl_ref data h 0xFFFF
  · intro pre post crc
    simp [proto_crc16_update, List.foldl_append]
  · decide

/-- C5 witness: the general equality applied to the concrete buffer
`"1\r\n"` (bytes 49, 13, 10). -/
theorem proto_crc16_spec_witness :
    proto_crc16_buf [49, 13, 10] = crc16_ref [49, 13, 10] :=
  proto_crc16_spec.1 [49, 13, 10] (by decide)

/-! ## Line assembler (Core/Src/comm.c, COMM_Process / COMM_Process_Budgeted)

```c
#define LINE_BUFFER_SIZE PROTO_MAX_LINE      /* = 256 */
...
if (c == '\r' || c == '\n') {
    if (line_len > 0) {
        line_buffer[line_len] = '\0';
        process_command(line_buffer);
    } else if (line_truncated) {
        COMM_Sendf(MSG_NACK ",SUBJECT=UNKNOWN,reason=line_too_long,code=%u" PROTO_EOL, 300U);
    }
    line_len = 0;
    line_truncated = 0;
} else if (!line_truncated) {
    if (line_len < (LINE_BUFFER_SIZE - 1)) {
        line_buffer[line_len++] = c;
    } else {
        line_truncated = 1;
        line_len = 0;
    }
}
```
The per-byte body is shared verbatim by `COMM_Process` and
`COMM_Process_Budgeted` (the latter only adds an 8-line/2 ms budget per
call, which does not change per-byte behaviour).  `lineBuf` holds the
`line_len` bytes currently in `line_buffer`. -/

structure CommSt where
  lineBuf : List Char
  truncated : Bool
deriving DecidableEq

inductive CommEvent where
  /-- `process_command(line_buffer)` was invoked on this payload. -/
  | delivered (payload : List Char)
  /-- `NACK,SUBJECT=UNKNOWN,reason=line_too_long,code=300` was emitted. -/
  | nackLineTooLong
deriving DecidableEq

def commInit : CommSt := ⟨[], false⟩

def COMM_ProcessByte (st : CommSt) (c : Char) : CommSt × List CommEvent :=
  if c = '\r' ∨ c = '\n' then
    if st.lineBuf.length > 0 then
      (⟨[], false⟩, [CommEvent.delivered st.lineBuf])
    else if st.truncated then
      (⟨[], false⟩, [CommEvent.nackLineTooLong])
    else
      (⟨[], false⟩, [])
  else if st.truncated = false then
    if st.lineBuf.length < 256 - 1 then
      (⟨st.lineBuf ++ [c], st.truncated⟩, [])
    else
      (⟨[], true⟩, [])
  else
    (st, [])

def COMM_Process (st : CommSt) (input : List Char) : CommSt × List CommEvent :=
  input.foldl
    (fun acc c =>
      ((COMM_ProcessByte acc.1 c).1, acc.2 ++ (COMM_ProcessByte acc.1 c).2))
    (st, [])

theorem COMM_Process_acc (cs : List Char) : ∀ (st : CommSt) (evs0 : List CommEvent),
    cs.foldl
      (fun acc c => ((COMM_ProcessByte acc.1 c).1, acc.2 ++ (COMM_ProcessByte acc.1 c).2))
      (st, evs0)
    = ((COMM_Process st cs).1, evs0 ++ (COMM_Process st cs).2) := by
  induction cs with
  | nil => intro st evs0; simp [COMM_Process]
  | cons c cs ih =>
    intro st evs0
    simp only [List.foldl_cons, COMM_Process]
    rw [ih (COMM_ProcessByte st c).1 (evs0 ++ (COMM_ProcessByte st c).2),
        ih (COMM_ProcessByte st c).1 ([] ++ (COMM_ProcessByte st c).2)]
    simp [List.append_assoc]

theorem COMM_Process_append (st : CommSt) (l1 l2 : List Char) :
    COMM_Process st (l1 ++ l2)
      = ((COMM_Process (COMM_Process st l1).1 l2).1,
         (COMM_Process st l1).2 ++ (COMM_Process (COMM_Process st l1).1 l2).2) := by
  unfold COMM_Process
  rw [List.foldl_append]
  exact COMM_Process_acc l2 (COMM_Process st l1).1 (COMM_Process st l1).2

theorem comm_fill (cs : List Char) : ∀ st : CommSt, st.truncated = false →
    (∀ c ∈ cs, c ≠ '\r' ∧ c ≠ '\n') →
    st.lineBuf.length + cs.length ≤ 255 →
    COMM_Process st cs = (⟨st.lineBuf ++ cs, false⟩, []) := by
  induction cs with
  | nil =>
    intro st htr _ _
    cases st with
    | mk b t => simp_all [COMM_Process]
  | cons c cs ih =>
    intro st htr hnc hlen
    have hc : c ≠ '\r' ∧ c ≠ '\n' := hnc c (by simp)
    have hstep : COMM_ProcessByte st c = (⟨st.lineBuf ++ [c], false⟩, []) := by
      unfold COMM_ProcessByte
      rw [if_neg (by tauto), if_pos htr,
        if_pos (by simp at hlen ⊢; omega), htr]
    have hcons := COMM_Process_acc cs (COMM_ProcessByte st c).1
      ([] ++ (COMM_ProcessByte st c).2)
    have : COMM_Process st (c :: cs)
        = ((COMM_Process (COMM_ProcessByte st c).1 cs).1,
           (COMM_ProcessByte st c).2 ++ (COMM_Process (COMM_ProcessByte st c).1 cs).2) := by
      unfold COMM_Process
      rw [List.foldl_cons]
      simpa using hcons
    rw [this, hstep]
    simp only
    rw [ih ⟨st.lineBuf ++ [c], false⟩ rfl (fun x hx => hnc x (by simp [hx]))
      (by simp at hlen ⊢; omega)]
    simp

/-- C6: the line-length boundary of the assembler is 255, not 254.  A
255-byte payload is passed to `process_command` with no NACK (the claim --
and `PROTO_MAX_LINE = 256` including CRLF -- require every payload over 254
bytes to be dropped with `NACK,code=300`); a 256-byte payload produces
exactly one NACK and no delivery; and for in-range payloads a single CR, a
single LF, and a CRLF pair all delimit identically. -/
theorem comm_line_boundary :
    (COMM_Process commInit (List.replicate 255 'A' ++ ['\r'])
      = (commInit, [CommEvent.delivered (List.replicate 255 'A')])) ∧
    (COMM_Process commInit (List.replicate 256 'A' ++ ['\r'])
      = (commInit, [CommEvent.nackLineTooLong])) ∧
    (∀ payload : List Char, payload ≠ [] → payload.length ≤ 255 →
      (∀ c ∈ payload, c ≠ '\r' ∧ c ≠ '\n') →
      COMM_Process commInit (payload ++ ['\r'])
          = (commInit, [CommEvent.delivered payload]) ∧
      COMM_Process commInit (payload ++ ['\n'])
          = (commInit, [CommEvent.delivered payload]) ∧
      COMM_Process commInit (payload ++ ['\r', '\n'])
          = (commInit, [CommEvent.delivered payload])) := by
  refine ⟨by decide, by decide, ?_⟩
  intro payload hne hlen hnc
  have hfill : COMM_Process commInit payload = (⟨payload, false⟩, []) := by
    have := comm_fill payload commInit rfl hnc (by simpa [commInit] using hlen)
    simpa [commInit] using this
  have hpos : payload.length > 0 := by
    cases payload with
    | nil => exact absurd rfl hne
    | cons a t => simp
  have hcr : COMM_ProcessByte ⟨payload, false⟩ '\r'
      = (commInit, [CommEvent.delivered payload]) := by
    unfold COMM_ProcessByte
    rw [if_pos (Or.inl rfl), if_pos hpos]
    rfl
  have hlf : COMM_ProcessByte ⟨payload, false⟩ '\n'
      = (commInit, [CommEvent.delivered payload]) := by
    unfold COMM_ProcessByte
    rw [if_pos (Or.inr rfl), if_pos hpos]
    rfl
  have hsingle : ∀ (st : CommSt) (c : Char), COMM_Process st [c]
      = ((COMM_ProcessByte st c).1, (COMM_ProcessByte st c).2) := by
    intro st c
    simp [COMM_Process]
  have hlf0 : COMM_ProcessByte commInit '\n' = (commInit, []) := by decide
  refine ⟨?_, ?_, ?_⟩
  · rw [COMM_Process_append commInit payload ['\r'], hfill]
    simp [hsingle, hcr]
  · rw [COMM_Process_append commInit payload ['\n'], hfill]
    simp [hsingle, hlf]
  · rw [COMM_Process_append commInit payload ['\r', '\n'], hfill]
    rw [show (['\r', '\n'] : List Char) = ['\r'] ++ ['\n'] from rfl,
      COMM_Process_append]
    simp [hsingle, hcr, hlf0]

/-- C6 witness: the delimiter-equivalence part applied to the one-byte
payload `['A']`. -/
theorem comm_line_boundary_witness :
    COMM_Process commInit (['A'] ++ ['\r'])
      = (commInit, [CommEvent.delivered ['A']]) :=
  ((comm_line_boundary.2.2 ['A'] (by decide) (by decide) (by decide)).1)

/-! ## Command handler infrastructure (Core/Src/cmd_handler.c)

`strstr`/`strncmp` over `List Char`, the reply sink (`Telemetry_SendACK` /
`Telemetry_SendNACK`), and the context fields the modelled handlers touch.
-/

/-- `strncmp(hay, needle, strlen(needle)) == 0`. -/
def startsWith : List Char → List Char → Bool
  | _, [] => true
  | [], _ :: _ => false
  | h :: hs, n :: ns => h = n && startsWith hs ns

/-- C `strstr`: the suffix of `hay` beginning at the first occurrence of
`needle`, or `none`. -/
def strstr (hay needle : List Char) : Option (List Char) :=
  if startsWith hay needle then some hay
  else
    match hay with
    | [] => none
    | _ :: t => strstr t needle

/-- `cmd_exact`: exact verb match followed by end of line, space or comma. -/
def cmd_exact (line cmd : List Char) : Bool :=
  startsWith line cmd &&
  (match line.drop cmd.length with
   | [] => true
   | c :: _ => c = ' ' || c = ',')

/-- A reply emitted by a handler: `ACK,SUBJECT=s` or
`NACK,SUBJECT=s,reason=r,code=c`. -/
inductive Reply where
  | ack (subject : List Char)
  | nack (subject reason : List Char) (code : ℕ)
deriving DecidableEq

def CMD_STOP : List Char := ['S', 'T', 'O', 'P']

def CMD_HB : List Char := ['H', 'B']

def CMD_SET_CFG : List Char := ['S', 'E', 'T', '_', 'C', 'F', 'G']

def CMD_SET_TRG : List Char := ['S', 'E', 'T', '_', 'T', 'R', 'G']

def reasonParamRange : List Char := ['p', 'a', 'r', 'a', 'm', '_', 'r', 'a', 'n', 'g', 'e']

def reasonBadArg : List Char := ['b', 'a', 'd', '_', 'a', 'r', 'g']

def reasonBlockedWhileArmed : List Char :=
  ['b', 'l', 'o', 'c', 'k', 'e', 'd', '_', 'w', 'h', 'i', 'l', 'e', '_', 'a', 'r', 'm', 'e', 'd']

theorem startsWith_iff (hay needle : List Char) :
    startsWith hay needle = true ↔ ∃ rest, hay = needle ++ rest := by
  induction needle generalizing hay with
  | nil => simp [startsWith]
  | cons n ns ih =>
    cases hay with
    | nil => simp [startsWith]
    | cons h hs =>
      simp only [startsWith, Bool.and_eq_true, decide_eq_true_eq]
      constructor
      · rintro ⟨rfl, hsw⟩
        obtain ⟨rest, rfl⟩ := (ih hs).mp hsw
        exact ⟨rest, rfl⟩
      · rintro ⟨rest, heq⟩
        rw [List.cons_append] at heq
        injection heq with h1 h2
        exact ⟨h1, (ih hs).mpr ⟨rest, h2⟩⟩

theorem strstr_isSome_iff (hay needle : List Char) :
    (strstr hay needle).isSome = true ↔ ∃ pre post, hay = pre ++ needle ++ post := by
  induction hay with
  | nil =>
    rw [strstr]
    by_cases h : startsWith [] needle = true
    · obtain ⟨rest, hr⟩ := (startsWith_iff [] needle).mp h
      obtain ⟨hn, hrr⟩ := List.append_eq_nil.mp hr.symm
      subst hn
      rw [if_pos h]
      simp only [Option.isSome_some, true_iff]
      exact ⟨[], [], rfl⟩
    · rw [if_neg h]
      simp only [Option.isSome_none, Bool.false_eq_true, false_iff]
      rintro ⟨pre, post, hp⟩
      obtain ⟨hpre, hrest⟩ := List.append_eq_nil.mp hp.symm
      obtain ⟨hp0, hn⟩ := List.append_eq_nil.mp hpre
      subst hn
      exact h (by decide)
  | cons c t ih =>
    rw [strstr]
    by_cases h : startsWith (c :: t) needle = true
    · rw [if_pos h]
      simp only [Option.isSome_some, true_iff]
      obtain ⟨rest, hr⟩ := (startsWith_iff _ needle).mp h
      exact ⟨[], rest, by simp [hr]⟩
    · rw [if_neg h]
      change (strstr t needle).isSome = true ↔ ∃ pre post, c :: t = pre ++ needle ++ post
      rw [ih]
      constructor
      · rintro ⟨pre, post, rfl⟩
        exact ⟨c :: pre, post, rfl⟩
      · rintro ⟨pre, post, hp⟩
        cases pre with
        | nil =>
          exfalso
          apply h
          rw [startsWith_iff]
          exact ⟨post, by simpa using hp⟩
        | cons p ps =>
          rw [List.cons_append, List.cons_append] at hp
          cases hp
          exact ⟨ps, post, rfl⟩

theorem strstr_some_mem {hay : List Char} {c : Char} {ns : List Char}
    (h : (strstr hay (c :: ns)).isSome = true) : c ∈ hay := by
  obtain ⟨pre, post, rfl⟩ := (strstr_isSome_iff _ _).mp h
  simp

/-! ## api_parse_float_fixed3 (Core/Src/api_parse.c)

Fixed-point float: optional sign, integer part (`uint32` accumulation,
wrapping mod 2^32 as in the source), optional `.` and at most 3 fraction
digits (a 4th digit fails), whitespace, terminator.  The C function
produces a `float`; since every caller in the modelled handlers only
stores the value (never computes with it), the value is modelled exactly
as the rational ±(ip + fp/1000), which both C paths (`scaled/1000.0f` and
the double path) approximate. -/

def floatIntLoop : List Char → ℕ → ℕ → (ℕ × ℕ × List Char)
  | [], ip, nd => (ip, nd, [])
  | c :: cs, ip, nd =>
    if isDigitCh c then
      floatIntLoop cs ((ip * 10 + (c.toNat - '0'.toNat)) % 2 ^ 32) (nd + 1)
    else (ip, nd, c :: cs)

def floatFracLoop : List Char → ℕ → ℕ → Option (ℕ × ℕ × List Char)
  | [], fp, nd => some (fp, nd, [])
  | c :: cs, fp, nd =>
    if isDigitCh c then
      if nd < 3 then floatFracLoop cs (fp * 10 + (c.toNat - '0'.toNat)) (nd + 1)
      else none
    else some (fp, nd, c :: cs)

def api_parse_float_fixed3 (s : List Char) : Option ℚ :=
  let s1 := skip_ws s
  let signed :=
    match s1 with
    | '+' :: t => (false, t)
    | '-' :: t => (true, t)
    | _ => (false, s1)
  let ipRes := floatIntLoop signed.2 0 0
  let fracRes :=
    match ipRes.2.2 with
    | '.' :: t => floatFracLoop t 0 0
    | _ => some (0, 0, ipRes.2.2)
  match fracRes with
  | none => none
  | some (fp, ndFrac, s4) =>
    if ipRes.2.1 = 0 ∧ ndFrac = 0 then none
    else if is_term_or_eol (skip_ws s4) then
      let fp3 := fp * 10 ^ (3 - ndFrac)
      let v : ℚ := ((ipRes.1 : ℚ) * 1000 + (fp3 : ℚ)) / 1000
      some (if signed.1 then -v else v)
    else none

/-! ## Parse_SetTrg (Core/Src/cmd_handler.c, lines 317-344)

```c
static void Parse_SetTrg(const char *line) {
    TriggerSettings_t ns = s_ctx->trigger_settings;
    if ((q = strstr(p, "k_mult=")) && api_parse_float_fixed3(q + 7, &ftmp))  ns.k_mult = ftmp;
    if ((q = strstr(p, "win_ms=")) && api_parse_u32(q + 7, &utmp))           ns.win_ms = utmp;
    if ((q = strstr(p, "hold_ms=")) && api_parse_u32(q + 8, &utmp))          ns.hold_ms = utmp;
    bool valid = (ns.hold_ms >= 100U && ns.hold_ms <= 10000U);
    if (!valid) { Telemetry_SendNACK(CMD_SET_TRG, "param_range", 102); return; }
    s_ctx->trigger_settings = ns;
    Telemetry_SendACK(CMD_SET_TRG);
}
```
Each C statement becomes one definition; `Parse_SetTrg` composes them. -/

structure TriggerSettings where
  k_mult : ℚ
  win_ms : ℕ
  hold_ms : ℕ
deriving DecidableEq

def kMultKey : List Char := ['k', '_', 'm', 'u', 'l', 't', '=']

def winMsKey : List Char := ['w', 'i', 'n', '_', 'm', 's', '=']

def holdMsKey : List Char := ['h', 'o', 'l', 'd', '_', 'm', 's', '=']

def setTrgApplyK (line : List Char) (ns : TriggerSettings) : TriggerSettings :=
  match strstr line kMultKey with
  | some q =>
    match api_parse_float_fixed3 (q.drop 7) with
    | some f => { ns with k_mult := f }
    | none => ns
  | none => ns

def setTrgApplyWin (line : List Char) (ns : TriggerSettings) : TriggerSettings :=
  match strstr line winMsKey with
  | some q =>
    match api_parse_u32 (q.drop 7) with
    | some v => { ns with win_ms := v }
    | none => ns
  | none => ns

def setTrgApplyHold (line : List Char) (ns : TriggerSettings) : TriggerSettings :=
  match strstr line holdMsKey with
  | some q =>
    match api_parse_u32 (q.drop 8) with
    | some v => { ns with hold_ms := v }
    | none => ns
  | none => ns

def Parse_SetTrg (line : List Char) (cur : TriggerSettings) : Reply × TriggerSettings :=
  let ns := setTrgApplyHold line (setTrgApplyWin line (setTrgApplyK line cur))
  if 100 ≤ ns.hold_ms ∧ ns.hold_ms ≤ 10000 then
    (Reply.ack CMD_SET_TRG, ns)
  else
    (Reply.nack CMD_SET_TRG reasonParamRange 102, cur)

/-- The value the handler would store for `k_mult`: the parsed parameter if
present and parseable, the current value otherwise. -/
def kMultArg (line : List Char) (dflt : ℚ) : ℚ :=
  match strstr line kMultKey with
  | some q => (api_parse_float_fixed3 (q.drop 7)).getD dflt
  | none => dflt

def winMsArg (line : List Char) (dflt : ℕ) : ℕ :=
  match strstr line winMsKey with
  | some q => (api_parse_u32 (q.drop 7)).getD dflt
  | none => dflt

def holdMsArg (line : List Char) (dflt : ℕ) : ℕ :=
  match strstr line holdMsKey with
  | some q => (api_parse_u32 (q.drop 8)).getD dflt
  | none => dflt

theorem triggerSettings_ext (a b : TriggerSettings) (h1 : a.k_mult = b.k_mult)
    (h2 : a.win_ms = b.win_ms) (h3 : a.hold_ms = b.hold_ms) : a = b := by
  cases a; cases b; simp_all

theorem setTrgApplyK_k (line : List Char) (ns : TriggerSettings) :
    (setTrgApplyK line ns).k_mult = kMultArg line ns.k_mult := by
  unfold setTrgApplyK kMultArg
  cases strstr line kMultKey with
  | none => rfl
  | some q => cases hp : api_parse_float_fixed3 (q.drop 7) <;> simp [hp]

theorem setTrgApplyK_win (line : List Char) (ns : TriggerSettings) :
    (setTrgApplyK line ns).win_ms = ns.win_ms := by
  unfold setTrgApplyK
  cases strstr line kMultKey with
  | none => rfl
  | some q => cases hp : api_parse_float_fixed3 (q.drop 7) <;> simp [hp]

theorem setTrgApplyK_hold (line : List Char) (ns : TriggerSettings) :
    (setTrgApplyK line ns).hold_ms = ns.hold_ms := by
  unfold setTrgApplyK
  cases strstr line kMultKey with
  | none => rfl
  | some q => cases hp : api_parse_float_fixed3 (q.drop 7) <;> simp [hp]

theorem setTrgApplyWin_k (line : List Char) (ns : TriggerSettings) :
    (setTrgApplyWin line ns).k_mult = ns.k_mult := by
  unfold setTrgApplyWin
  cases strstr line winMsKey with
  | none => rfl
  | some q => cases hp : api_parse_u32 (q.drop 7) <;> simp [hp]

theorem setTrgApplyWin_win (line : List Char) (ns : TriggerSettings) :
    (setTrgApplyWin line ns).win_ms = winMsArg line ns.win_ms := by
  unfold setTrgApplyWin winMsArg
  cases strstr line winMsKey with
  | none => rfl
  | some q => cases hp : api_parse_u32 (q.drop 7) <;> simp [hp]

theorem setTrgApplyWin_hold (line : List Char) (ns : TriggerSettings) :
    (setTrgApplyWin line ns).hold_ms = ns.hold_ms := by
  unfold setTrgApplyWin
  cases strstr line winMsKey with
  | none => rfl
  | some q => cases hp : api_parse_u32 (q.drop 7) <;> simp [hp]

theorem setTrgApplyHold_k (line : List Char) (ns : TriggerSettings) :
    (setTrgApplyHold line ns).k_mult = ns.k_mult := by
  unfold setTrgApplyHold
  cases strstr line holdMsKey with
  | none => rfl
  | some q => cases hp : api_parse_u32 (q.drop 8) <;> simp [hp]

theorem setTrgApplyHold_win (line : List Char) (ns : TriggerSettings) :
    (setTrgApplyHold line ns).win_ms = ns.win_ms := by
  unfold setTrgApplyHold
  cases strstr line holdMsKey with
  | none => rfl
  | some q => cases hp : api_parse_u32 (q.drop 8) <;> simp [hp]

theorem setTrgApplyHold_hold (line : List Char) (ns : TriggerSettings) :
    (setTrgApplyHold line ns).hold_ms = holdMsArg line ns.hold_ms := by
  unfold setTrgApplyHold holdMsArg
  cases strstr line holdMsKey with
  | none => rfl
  | some q => cases hp : api_parse_u32 (q.drop 8) <;> simp [hp]

theorem Parse_SetTrg_eq (line : List Char) (cur : TriggerSettings) :
    Parse_SetTrg line cur =
      if 100 ≤ holdMsArg line cur.hold_ms ∧ holdMsArg line cur.hold_ms ≤ 10000 then
        (Reply.ack CMD_SET_TRG,
         ⟨kMultArg line cur.k_mult, winMsArg line cur.win_ms, holdMsArg line cur.hold_ms⟩)
      else (Reply.nack CMD_SET_TRG reasonParamRange 102, cur) := by
  unfold Parse_SetTrg
  have hns : setTrgApplyHold line (setTrgApplyWin line (setTrgApplyK line cur))
      = ⟨kMultArg line cur.k_mult, winMsArg line cur.win_ms, holdMsArg line cur.hold_ms⟩ := by
    apply triggerSettings_ext
    · rw [setTrgApplyHold_k, setTrgApplyWin_k, setTrgApplyK_k]
    · rw [setTrgApplyHold_win, setTrgApplyWin_win, setTrgApplyK_win]
    · rw [setTrgApplyHold_hold, setTrgApplyWin_hold, setTrgApplyK_hold]
  rw [hns]

/-- C1 inputs for the counterexample: the power-on defaults of
`AppContext_Init` (`k_mult = 5.0`, `win_ms = 100`, `hold_ms = 1500`) and the
line `SET_TRG,win_ms=1000`. -/
def setTrgCexSettings : TriggerSettings := ⟨5, 100, 1500⟩

def setTrgCexLine : List Char :=
  ['S', 'E', 'T', '_', 'T', 'R', 'G', ',', 'w', 'i', 'n', '_', 'm', 's', '=',
   '1', '0', '0', '0']

/-- C1 (counterexample): `SET_TRG,win_ms=1000` carries `win_ms` outside the
claimed range [50, 500], yet the handler replies ACK and stores the value;
the claim requires `NACK,reason=param_range,code=102` with the settings
unchanged.  (`k_mult` is likewise stored unvalidated; only `hold_ms` is
checked.) -/
theorem setTrg_win_not_validated :
    (Parse_SetTrg setTrgCexLine setTrgCexSettings).1 = Reply.ack CMD_SET_TRG ∧
    (Parse_SetTrg setTrgCexLine setTrgCexSettings).2.win_ms = 1000 ∧
    ¬ (50 ≤ (1000 : ℕ) ∧ (1000 : ℕ) ≤ 500) := by decide

/-- C1 (amended): `Parse_SetTrg` validates only the resulting `hold_ms`,
which must lie in [100, 10000]: on violation it replies
`NACK,SUBJECT=SET_TRG,reason=param_range,code=102` and leaves
`trigger_settings` unchanged; otherwise it replies ACK and stores all
present (parseable) parameters -- `k_mult` and `win_ms` without any range
check. -/
theorem setTrg_only_hold_validated (line : List Char) (cur : TriggerSettings) :
    ((Parse_SetTrg line cur).1 = Reply.nack CMD_SET_TRG reasonParamRange 102 ↔
      ¬ (100 ≤ holdMsArg line cur.hold_ms ∧ holdMsArg line cur.hold_ms ≤ 10000)) ∧
    ((Parse_SetTrg line cur).1 = Reply.nack CMD_SET_TRG reasonParamRange 102 →
      (Parse_SetTrg line cur).2 = cur) ∧
    ((Parse_SetTrg line cur).1 = Reply.ack CMD_SET_TRG ↔
      100 ≤ holdMsArg line cur.hold_ms ∧ holdMsArg line cur.hold_ms ≤ 10000) ∧
    ((Parse_SetTrg line cur).1 = Reply.ack CMD_SET_TRG →
      (Parse_SetTrg line cur).2 =
        ⟨kMultArg line cur.k_mult, winMsArg line cur.win_ms, holdMsArg line cur.hold_ms⟩) := by
  rw [Parse_SetTrg_eq]
  by_cases h : 100 ≤ holdMsArg line cur.hold_ms ∧ holdMsArg line cur.hold_ms ≤ 10000 <;>
    simp [h]

/-- C1 witness: the amended theorem applied to the counterexample line,
where the resulting `hold_ms` (1500, unchanged) is in range, forcing ACK. -/
theorem setTrg_only_hold_validated_witness :
    (Parse_SetTrg setTrgCexLine setTrgCexSettings).1 = Reply.ack CMD_SET_TRG :=
  ((setTrg_only_hold_validated setTrgCexLine setTrgCexSettings).2.2.1).mpr (by decide)

/-! ## Parse_SetCfg (Core/Src/cmd_handler.c, lines 252-315)

Four optional `u32` parameters defaulting to the current configuration,
validated in source order: `burst_ms ∈ [1, 600000]`, `hb_ms = 0 ∨ ≥ 100`,
`stream_rate_hz ≤ Sensor_SnapODR(odr_hz)` and, when non-zero, dividing it;
any violation sends `NACK,param_range,102` before anything is stored.  The
subsequent `Sensor_SetODR`/timer/streaming reconfiguration acts on
hardware, outside the modelled state. -/

structure RuntimeCfg where
  odr_hz : ℕ
  burst_ms : ℕ
  hb_ms : ℕ
  stream_rate_hz : ℕ
deriving DecidableEq

def odrKey : List Char := ['o', 'd', 'r', '_', 'h', 'z', '=']

def burstKey : List Char := ['b', 'u', 'r', 's', 't', '_', 'm', 's', '=']

def hbKey : List Char := ['h', 'b', '_', 'm', 's', '=']

def rateKey : List Char :=
  ['s', 't', 'r', 'e', 'a', 'm', '_', 'r', 'a', 't', 'e', '_', 'h', 'z', '=']

/-- `if ((q = strstr(p, key)) && api_parse_u32(q + n, &tmp)) x = tmp;` -/
def u32ArgAt (line key : List Char) (n : ℕ) (dflt : ℕ) : ℕ :=
  match strstr line key with
  | some q =>
    match api_parse_u32 (q.drop n) with
    | some v => v
    | none => dflt
  | none => dflt

def Parse_SetCfg (line : List Char) (cur : RuntimeCfg) : Reply × RuntimeCfg :=
  if u32ArgAt line burstKey 9 cur.burst_ms = 0
      ∨ u32ArgAt line burstKey 9 cur.burst_ms > 600000 then
    (Reply.nack CMD_SET_CFG reasonParamRange 102, cur)
  else if u32ArgAt line hbKey 6 cur.hb_ms > 0 ∧ u32ArgAt line hbKey 6 cur.hb_ms < 100 then
    (Reply.nack CMD_SET_CFG reasonParamRange 102, cur)
  else if u32ArgAt line rateKey 15 cur.stream_rate_hz
      > Sensor_SnapODR (u32ArgAt line odrKey 7 cur.odr_hz) then
    (Reply.nack CMD_SET_CFG reasonParamRange 102, cur)
  else if u32ArgAt line rateKey 15 cur.stream_rate_hz > 0
      ∧ Sensor_SnapODR (u32ArgAt line odrKey 7 cur.odr_hz)
          % u32ArgAt line rateKey 15 cur.stream_rate_hz ≠ 0 then
    (Reply.nack CMD_SET_CFG reasonParamRange 102, cur)
  else
    (Reply.ack CMD_SET_CFG,
     { odr_hz := Sensor_SnapODR (u32ArgAt line odrKey 7 cur.odr_hz),
       burst_ms := u32ArgAt line burstKey 9 cur.burst_ms,
       hb_ms := u32ArgAt line hbKey 6 cur.hb_ms,
       stream_rate_hz := u32ArgAt line rateKey 15 cur.stream_rate_hz })

/-- C7: `SET_CFG` is acknowledged iff the resulting values satisfy
`burst_ms ∈ [1, 600000]`, `hb_ms = 0 ∨ hb_ms ≥ 100`,
`stream_rate_hz ≤` the snapped `odr_hz`, and, when `stream_rate_hz` is
non-zero, the snapped `odr_hz` is an exact multiple of it; on success all
four fields are stored (with `odr_hz` snapped), and on any violation the
reply is `NACK,SUBJECT=SET_CFG,reason=param_range,code=102` with the whole
`RuntimeCfg` left unchanged. -/
theorem setCfg_spec (line : List Char) (cur : RuntimeCfg) :
    ((Parse_SetCfg line cur).1 = Reply.ack CMD_SET_CFG ↔
      (1 ≤ u32ArgAt line burstKey 9 cur.burst_ms
        ∧ u32ArgAt line burstKey 9 cur.burst_ms ≤ 600000)
      ∧ (u32ArgAt line hbKey 6 cur.hb_ms = 0 ∨ 100 ≤ u32ArgAt line hbKey 6 cur.hb_ms)
      ∧ u32ArgAt line rateKey 15 cur.stream_rate_hz
          ≤ Sensor_SnapODR (u32ArgAt line odrKey 7 cur.odr_hz)
      ∧ (0 < u32ArgAt line rateKey 15 cur.stream_rate_hz →
          Sensor_SnapODR (u32ArgAt line odrKey 7 cur.odr_hz)
            % u32ArgAt line rateKey 15 cur.stream_rate_hz = 0)) ∧
    ((Parse_SetCfg line cur).1 = Reply.ack CMD_SET_CFG →
      (Parse_SetCfg line cur).2 =
        ⟨Sensor_SnapODR (u32ArgAt line odrKey 7 cur.odr_hz),
         u32ArgAt line burstKey 9 cur.burst_ms,
         u32ArgAt line hbKey 6 cur.hb_ms,
         u32ArgAt line rateKey 15 cur.stream_rate_hz⟩) ∧
    ((Parse_SetCfg line cur).1 ≠ Reply.ack CMD_SET_CFG →
      (Parse_SetCfg line cur).1 = Reply.nack CMD_SET_CFG reasonParamRange 102 ∧
      (Parse_SetCfg line cur).2 = cur) := by
  unfold Parse_SetCfg
  split_ifs with h1 h2 h3 h4 <;>
    refine ⟨?_, ?_, ?_⟩ <;>
    simp_all <;>
    omega

/-- C7 witness: the characterization applied to an empty parameter line and
the boot defaults `odr=800, burst=5000, hb=1000, rate=100`, which satisfy
every condition, forcing ACK and storage of the same values. -/
theorem setCfg_spec_witness :
    (Parse_SetCfg [] ⟨800, 5000, 1000, 100⟩).1 = Reply.ack CMD_SET_CFG :=
  ((setCfg_spec [] ⟨800, 5000, 1000, 100⟩).1).mpr (by decide)

theorem api_parse_u32_digits (ds : List Char) (hne : ds ≠ [])
    (hdig : ∀ c ∈ ds, isDigitCh c = true) (hlt : digitsVal ds < 2 ^ 32) :
    api_parse_u32 ds = some (digitsVal ds) := by
  unfold api_parse_u32
  have hskip : skip_ws ds = ds := by simpa using skip_ws_of_digit_head ds [] hne hdig
  have hloop := u32Loop_spec ds [] 0 0 hdig (Or.inl rfl) (by norm_num)
  rw [List.append_nil] at hloop
  rw [hskip, hloop, if_pos (by simpa using hlt)]
  have hlen : ¬ ds.length = 0 := fun h => hne (List.length_eq_zero.mp h)
  simp [hlen, skip_ws, is_term_or_eol]

/-! ## Parse_HB (Core/Src/cmd_handler.c, lines 464-487)

```c
static void Parse_HB(const char *line) {
    if (strstr(line, "OFF")) { s_ctx->cfg.hb_ms = 0; Telemetry_SendACK(CMD_HB); return; }
    if (strstr(line, "ON")) {
        if (s_ctx->cfg.hb_ms == 0) s_ctx->cfg.hb_ms = 1000;
        Telemetry_SendACK(CMD_HB); return;
    }
    const char *p = strstr(line, "ms=");
    if (p) {
        uint32_t v = 0;
        if (api_parse_u32(p + 3, &v)) {
            if (v > 0 && v < 100) v = 100;
            s_ctx->cfg.hb_ms = v;
            Telemetry_SendACK(CMD_HB); return;
        }
    }
    Telemetry_SendNACK(CMD_HB, "bad_arg", 101);
}
```
-/

def offKey : List Char := ['O', 'F', 'F']

def onKey : List Char := ['O', 'N']

def msKey : List Char := ['m', 's', '=']

def Parse_HB (line : List Char) (cur_hb : ℕ) : Reply × ℕ :=
  if (strstr line offKey).isSome then (Reply.ack CMD_HB, 0)
  else if (strstr line onKey).isSome then
    (Reply.ack CMD_HB, if cur_hb = 0 then 1000 else cur_hb)
  else
    match strstr line msKey with
    | some p =>
      match api_parse_u32 (p.drop 3) with
      | some v => (Reply.ack CMD_HB, if 0 < v ∧ v < 100 then 100 else v)
      | none => (Reply.nack CMD_HB reasonBadArg 101, cur_hb)
    | none => (Reply.nack CMD_HB reasonBadArg 101, cur_hb)

/-- C10: for every `HB,ms=<v>` line with a parseable `v`: `v = 0` stores 0,
`0 < v < 100` silently stores 100 (snapping up instead of rejecting), and
`v ≥ 100` stores `v`; in all cases the reply is `ACK,SUBJECT=HB` -- never a
range NACK. -/
theorem hb_ms_snaps_up (ds : List Char) (cur_hb : ℕ) (hne : ds ≠ [])
    (hdig : ∀ c ∈ ds, isDigitCh c = true) (hlt : digitsVal ds < 2 ^ 32) :
    Parse_HB (['H', 'B', ',', 'm', 's', '='] ++ ds) cur_hb
      = (Reply.ack CMD_HB,
         if 0 < digitsVal ds ∧ digitsVal ds < 100 then 100 else digitsVal ds) := by
  have hO : ('O' : Char) ∉ ['H', 'B', ',', 'm', 's', '='] ++ ds := by
    intro hmem
    rcases List.mem_append.mp hmem with h | h
    · simp at h
    · have := digit_toNat (hdig 'O' h)
      have hONat : ('O' : Char).toNat = 79 := by decide
      omega
  have hoff : (strstr (['H', 'B', ',', 'm', 's', '='] ++ ds) offKey).isSome = false := by
    by_contra h
    rw [Bool.not_eq_false] at h
    exact hO (strstr_some_mem
      (show (strstr _ ('O' :: ['F', 'F'])).isSome = true from h))
  have hon : (strstr (['H', 'B', ',', 'm', 's', '='] ++ ds) onKey).isSome = false := by
    by_contra h
    rw [Bool.not_eq_false] at h
    exact hO (strstr_some_mem
      (show (strstr _ ('O' :: ['N'])).isSome = true from h))
  have hms : strstr (['H', 'B', ',', 'm', 's', '='] ++ ds) msKey
      = some (['m', 's', '='] ++ ds) := by
    simp [strstr, startsWith, msKey]
  unfold Parse_HB
  rw [hoff, hon, hms]
  simp only [Bool.false_eq_true, if_false, List.drop, List.append_eq, List.nil_append]
  rw [api_parse_u32_digits ds hne hdig hlt]

/-- C10 witness: `HB,ms=50` with current `hb_ms = 1000` is ACKed and stores
100 (50 is snapped up), by the general theorem. -/
theorem hb_ms_snaps_up_witness :
    Parse_HB (['H', 'B', ',', 'm', 's', '='] ++ ['5', '0']) 1000
      = (Reply.ack CMD_HB, 100) := by
  rw [hb_ms_snaps_up ['5', '0'] 1000 (by decide) (by decide) (by decide)]
  decide

/-! ## The STOP arm of process_command (Core/Src/cmd_handler.c, lines 198-204)

```c
} else if (cmd_exact(line, CMD_STOP)) {
    bool force = (strstr(line, ",FORCE") != NULL);
    if (s_ctx->op_mode == OP_MODE_ARMED && s_ctx->trg_state == TRG_STATE_ARMED && !force) {
        Telemetry_SendNACK(CMD_STOP, "blocked_while_armed", 201);
    } else {
        s_ctx->stop_flag = true;
    }
}
```
Neither branch touches `op_mode` or `trg_state`; the function returns the
optionally emitted NACK and the new `stop_flag` (the actual stop is
performed later by `CmdHandler_HandleStop` at the pump boundary). -/

inductive OpMode where
  | init | idle | waitCalZero | trgCalZero | waitArm | armed
  | countdown | burst | burstSending | staticRun | streaming | error
deriving DecidableEq

inductive TrgState where
  | idle | armed | holdoff
deriving DecidableEq

def forceKey : List Char := [',', 'F', 'O', 'R', 'C', 'E']

def processStop (line : List Char) (mode : OpMode) (trg : TrgState)
    (stopFlag : Bool) : Option Reply × Bool :=
  if mode = OpMode.armed ∧ trg = TrgState.armed ∧ ¬ (strstr line forceKey).isSome then
    (some (Reply.nack CMD_STOP reasonBlockedWhileArmed 201), stopFlag)
  else
    (none, true)

/-- C3 (counterexample): in `op_mode = Armed` with `trg_state = Holdoff`, a
plain `STOP` line is *accepted*: no NACK is emitted and the stop flag is
set.  The claim requires `NACK,blocked_while_armed,201` with the stop flag
unchanged regardless of whether `trg_state` is Armed or Holdoff. -/
theorem stop_holdoff_not_blocked :
    processStop ['S', 'T', 'O', 'P'] OpMode.armed TrgState.holdoff false
      = (none, true) := by decide

/-- C3 (amended): a STOP line is rejected with
`NACK,SUBJECT=STOP,reason=blocked_while_armed,code=201` (leaving the stop
flag, and trivially `op_mode`/`trg_state`, unchanged) exactly when
`op_mode = Armed` AND `trg_state = Armed` AND the line does not contain the
literal `,FORCE`; in every other case -- including `trg_state = Holdoff`
while `op_mode = Armed` -- the handler emits nothing and sets the stop
flag. -/
theorem stop_blocked_iff (line : List Char) (mode : OpMode) (trg : TrgState)
    (stopFlag : Bool) :
    (processStop line mode trg stopFlag
        = (some (Reply.nack CMD_STOP reasonBlockedWhileArmed 201), stopFlag)
      ↔ mode = OpMode.armed ∧ trg = TrgState.armed ∧
        ¬ ∃ pre post, line = pre ++ forceKey ++ post) ∧
    (¬ (mode = OpMode.armed ∧ trg = TrgState.armed ∧
        ¬ ∃ pre post, line = pre ++ forceKey ++ post) →
      processStop line mode trg stopFlag = (none, true)) := by
  have hforce : (strstr line forceKey).isSome = true
      ↔ ∃ pre post, line = pre ++ forceKey ++ post := strstr_isSome_iff line forceKey
  unfold processStop
  by_cases h : mode = OpMode.armed ∧ trg = TrgState.armed ∧
      ¬ (strstr line forceKey).isSome
  · rw [if_pos h]
    simp only [Prod.mk.injEq]
    constructor
    · constructor
      · intro _
        exact ⟨h.1, h.2.1, fun hex => h.2.2 (by simpa using hforce.mpr hex)⟩
      · intro _
        trivial
    · intro hneg
      exact absurd ⟨h.1, h.2.1, fun hex => h.2.2 (by simpa using hforce.mpr hex)⟩ hneg
  · rw [if_neg h]
    constructor
    · constructor
      · intro hfalse
        cases hfalse
      · intro ⟨h1, h2, h3⟩
        exact absurd ⟨h1, h2, fun hs => h3 (hforce.mp (by simpa using hs))⟩ h
    · intro _
      rfl

/-- C3 witness: the amended guard applied concretely: `STOP` while
(Armed, Armed) is NACKed with code 201 and the stop flag stays false. -/
theorem stop_blocked_iff_witness :
    processStop ['S', 'T', 'O', 'P'] OpMode.armed TrgState.armed false
      = (some (Reply.nack CMD_STOP reasonBlockedWhileArmed 201), false) :=
  ((stop_blocked_iff ['S', 'T', 'O', 'P'] OpMode.armed TrgState.armed false).1).mpr
    ⟨rfl, rfl, fun hex => by
      obtain ⟨pre, post, hp⟩ := hex
      have hlen := congrArg List.length hp
      simp [forceKey] at hlen
      omega⟩

/-! ## BLOCKS transport (Core/Src/transport_blocks.c)

The sender state `g_tb` with its FIFO queue (capacity `TB_MAX_QUEUE = 16`)
and inflight array (capacity `TB_MAX_INFLIGHT = 8`).  Entries are values;
the block generator and its `user` pointer only influence the bytes on the
wire, not the transport-state evolution, so `TB_EnqueueBlock` takes the
line count and computed CRC directly.  `HAL_GetTick()` is passed in as
`now`; the `uint32` tick difference of `_pump_timeouts` is modelled
modularly by `tickElapsed`. -/

def TB_MAX_INFLIGHT : ℕ := 8

def TB_MAX_QUEUE : ℕ := 16

def PROTO_BLOCK_TIMEOUT_MS : ℕ := 1000

def PROTO_MAX_RETRIES : ℕ := 3

def PROTO_BLOCK_LINES_DEFAULT : ℕ := 128

structure TbEntry where
  blk : ℕ
  lines : ℕ
  crc16 : ℕ
  retries : ℕ
  sent : Bool
  tLastTx : ℕ
  inflightF : Bool
  done : Bool
deriving DecidableEq

structure TbState where
  window : ℕ
  blk_lines : ℕ
  max_retries : ℕ
  burst_id : ℕ
  next_blk : ℕ
  burst_active : Bool
  queue : List TbEntry
  inflight : List TbEntry
deriving DecidableEq

/-- The zero-initialised C static `g_tb`. -/
def tb_zero : TbState := ⟨0, 0, 0, 0, 0, false, [], []⟩

def TB_Init (window blk_lines max_retries : ℕ) : TbState :=
  { window := if window = 0 ∨ window > TB_MAX_INFLIGHT then TB_MAX_INFLIGHT else window,
    blk_lines := if blk_lines = 0 then PROTO_BLOCK_LINES_DEFAULT else blk_lines,
    max_retries := if max_retries = 0 then PROTO_MAX_RETRIES else max_retries,
    burst_id := 0, next_blk := 0, burst_active := false,
    queue := [], inflight := [] }

def TB_BeginBurst (id : ℕ) (st : TbState) : TbState :=
  { st with
    burst_id := id, next_blk := 1, burst_active := true,
    queue := [], inflight := [] }

def TB_EndBurst (st : TbState) : TbState := { st with burst_active := false }

def TB_EnqueueBlock (lines crc : ℕ) (st : TbState) : TbState :=
  if st.burst_active = false ∨ lines = 0 ∨ lines > st.blk_lines then st
  else if st.queue.length ≥ TB_MAX_QUEUE then st
  else
    { st with
      queue := st.queue ++ [⟨st.next_blk, lines, crc, 0, false, 0, false, false⟩],
      next_blk := st.next_blk + 1 }

/-- `_send_block`: transmit and stamp the entry. -/
def sendBlockE (now : ℕ) (e : TbEntry) : TbEntry :=
  { e with tLastTx := now % 2 ^ 32, sent := true, inflightF := true }

/-- `_inflight_add`: append if below capacity. -/
def inflightAdd (e : TbEntry) (st : TbState) : TbState :=
  if st.inflight.length < TB_MAX_INFLIGHT then
    { st with inflight := st.inflight ++ [{ e with inflightF := true }] }
  else st

/-- `_abort_all` (`BM_EndAborted` is a burst-manager effect outside this
state). -/
def tbAbortAll (st : TbState) : TbState :=
  { st with inflight := [], queue := [], burst_active := false }

/-- The `uint32` difference `(uint32_t)(now - t_last_tx)`. -/
def tickElapsed (now t : ℕ) : ℕ :=
  (now % 2 ^ 32 + 2 ^ 32 - t % 2 ^ 32) % 2 ^ 32

/-- `_pump_send`: while the window has room and the queue is non-empty,
pop, send, add to inflight. -/
def pumpSend (now : ℕ) (st : TbState) : TbState :=
  if st.inflight.length < st.window then
    match hq : st.queue with
    | [] => st
    | e :: rest =>
      pumpSend now (inflightAdd (sendBlockE now e) { st with queue := rest })
  else st
termination_by st.queue.length
decreasing_by
  simp only [inflightAdd]
  split <;> simp [hq]

/-- `_pump_timeouts`: index walk over inflight; stale unflagged entries are
removed, timed-out entries are resent while retries remain, otherwise the
whole burst is aborted. -/
def pumpTimeoutsLoop (now : ℕ) (st : TbState) (i : ℕ) : TbState :=
  if h : i < st.inflight.length then
    let e := st.inflight.get ⟨i, h⟩
    if e.inflightF = false then
      pumpTimeoutsLoop now { st with inflight := st.inflight.eraseIdx i } i
    else if PROTO_BLOCK_TIMEOUT_MS ≤ tickElapsed now e.tLastTx then
      if e.retries < st.max_retries then
        pumpTimeoutsLoop now
          { st with inflight :=
              st.inflight.set i (sendBlockE now { e with retries := e.retries + 1 }) }
          (i + 1)
      else
        tbAbortAll st
    else
      pumpTimeoutsLoop now st (i + 1)
  else st
termination_by st.inflight.length - i
decreasing_by
  · simp only [List.length_eraseIdx, h, if_pos]
    omega
  · simp only [List.length_set]
    omega
  · omega

def TB_Pump (now : ℕ) (st : TbState) : TbState :=
  if st.burst_active = false then st
  else pumpTimeoutsLoop now (pumpSend now st) 0

def TB_OnAckBlk (blk : ℕ) (st : TbState) : TbState :=
  match st.inflight.findIdx? (fun e => e.blk == blk && e.inflightF) with
  | some idx => { st with inflight := st.inflight.eraseIdx idx }
  | none => st

def TB_OnNackBlk (blk _code now : ℕ) (st : TbState) : TbState :=
  match st.inflight.findIdx? (fun e => e.blk == blk && e.inflightF) with
  | some idx =>
    if h : idx < st.inflight.length then
      let e := st.inflight.get ⟨idx, h⟩
      if e.retries < st.max_retries then
        { st with inflight :=
            st.inflight.set idx (sendBlockE now { e with retries := e.retries + 1 }) }
      else tbAbortAll st
    else st
  | none => st

/-- One call into the transport API, with its inputs. -/
inductive TbOp where
  | init (window blk_lines max_retries : ℕ)
  | beginBurst (id : ℕ)
  | endBurst
  | enqueueBlock (lines crc : ℕ)
  | pump (now : ℕ)
  | onAckBlk (blk : ℕ)
  | onNackBlk (blk code now : ℕ)

def tbApply : TbOp → TbState → TbState
  | TbOp.init w b r, _ => TB_Init w b r
  | TbOp.beginBurst id, st => TB_BeginBurst id st
  | TbOp.endBurst, st => TB_EndBurst st
  | TbOp.enqueueBlock l c, st => TB_EnqueueBlock l c st
  | TbOp.pump now, st => TB_Pump now st
  | TbOp.onAckBlk blk, st => TB_OnAckBlk blk st
  | TbOp.onNackBlk blk code now, st => TB_OnNackBlk blk code now st

/-- Any state reachable by a sequence of transport calls from power-on. -/
def tbRun (ops : List TbOp) : TbState :=
  ops.foldl (fun st op => tbApply op st) tb_zero

/-- The C8 invariant: the inflight set never exceeds the window, and the
window never exceeds the compile-time capacity 8. -/
def TbInv (st : TbState) : Prop :=
  st.inflight.length ≤ st.window ∧ st.window ≤ TB_MAX_INFLIGHT

theorem inflightAdd_window (e : TbEntry) (st : TbState) :
    (inflightAdd e st).window = st.window := by
  unfold inflightAdd; split <;> rfl

theorem inflightAdd_queue (e : TbEntry) (st : TbState) :
    (inflightAdd e st).queue = st.queue := by
  unfold inflightAdd; split <;> rfl

theorem inflightAdd_len_le (e : TbEntry) (st : TbState)
    (h : st.inflight.length < st.window) :
    (inflightAdd e st).inflight.length ≤ st.window := by
  unfold inflightAdd
  split
  · simp
    omega
  · exact Nat.le_of_lt h

theorem pumpSend_inv (now : ℕ) :
    ∀ (n : ℕ) (st : TbState), st.queue.length ≤ n → TbInv st →
      TbInv (pumpSend now st) := by
  intro n
  induction n with
  | zero =>
    intro st hq hInv
    rw [pumpSend]
    split
    · have hqe : st.queue = [] := List.length_eq_zero.mp (Nat.le_zero.mp hq)
      rw [hqe]
      exact hInv
    · exact hInv
  | succ n ih =>
    intro st hq hInv
    rw [pumpSend]
    split
    · rename_i hlt
      cases hqe : st.queue with
      | nil => exact hInv
      | cons e rest =>
        apply ih
        · rw [inflightAdd_queue]
          rw [hqe] at hq
          simp only [List.length_cons] at hq
          show rest.length ≤ n
          omega
        · constructor
          · rw [inflightAdd_window]
            exact inflightAdd_len_le _ _ (by simpa using hlt)
          · rw [inflightAdd_window]
            exact hInv.2
    · exact hInv

theorem tbAbortAll_inv (st : TbState) (hInv : TbInv st) : TbInv (tbAbortAll st) := by
  unfold tbAbortAll TbInv at *
  simpa using hInv.2

theorem pumpTimeoutsLoop_inv (now : ℕ) :
    ∀ (fuel : ℕ) (st : TbState) (i : ℕ), st.inflight.length - i ≤ fuel →
      TbInv st → TbInv (pumpTimeoutsLoop now st i) := by
  intro fuel
  induction fuel with
  | zero =>
    intro st i hm hInv
    rw [pumpTimeoutsLoop]
    rw [dif_neg (by omega)]
    exact hInv
  | succ fuel ih =>
    intro st i hm hInv
    have hi1 := hInv.1
    have hi2 := hInv.2
    rw [pumpTimeoutsLoop]
    by_cases h : i < st.inflight.length
    · rw [dif_pos h]
      simp only
      split
      · apply ih
        · rw [List.length_eraseIdx]
          simp [h]
          omega
        · refine ⟨?_, hi2⟩
          rw [List.length_eraseIdx]
          simp [h]
          omega
      · split
        · split
          · apply ih
            · rw [List.length_set]
              omega
            · refine ⟨?_, hInv.2⟩
              rw [List.length_set]
              exact hInv.1
          · exact tbAbortAll_inv st hInv
        · apply ih
          · omega
          · exact hInv
    · rw [dif_neg h]
      exact hInv

theorem tbApply_inv (op : TbOp) (st : TbState) (hInv : TbInv st) :
    TbInv (tbApply op st) := by
  cases op with
  | init w b r =>
    constructor
    · simp [tbApply, TB_Init]
    · simp only [tbApply, TB_Init]
      split
      · simp [TB_MAX_INFLIGHT]
      · rename_i hw
        simp only [TB_MAX_INFLIGHT] at hw ⊢
        omega
  | beginBurst id =>
    exact ⟨by simp [tbApply, TB_BeginBurst], by simpa [tbApply, TB_BeginBurst] using hInv.2⟩
  | endBurst =>
    exact ⟨by simpa [tbApply, TB_EndBurst] using hInv.1,
      by simpa [tbApply, TB_EndBurst] using hInv.2⟩
  | enqueueBlock l c =>
    simp only [tbApply, TB_EnqueueBlock]
    split
    · exact hInv
    · split
      · exact hInv
      · exact ⟨by simpa using hInv.1, by simpa using hInv.2⟩
  | pump now =>
    simp only [tbApply, TB_Pump]
    split
    · exact hInv
    · exact pumpTimeoutsLoop_inv now _ _ 0 (Nat.le_refl _)
        (pumpSend_inv now st.queue.length st (Nat.le_refl _) hInv)
  | onAckBlk blk =>
    simp only [tbApply, TB_OnAckBlk]
    cases st.inflight.findIdx? (fun e => e.blk == blk && e.inflightF) with
    | none => exact hInv
    | some idx =>
      refine ⟨?_, by simpa using hInv.2⟩
      simp only
      calc (st.inflight.eraseIdx idx).length ≤ st.inflight.length :=
            List.length_eraseIdx_le _ _
      _ ≤ st.window := hInv.1
  | onNackBlk blk code now =>
    simp only [tbApply, TB_OnNackBlk]
    cases st.inflight.findIdx? (fun e => e.blk == blk && e.inflightF) with
    | none => exact hInv
    | some idx =>
      simp only
      split
      · split
        · refine ⟨?_, by simpa using hInv.2⟩
          simp only [List.length_set]
          exact hInv.1
        · exact tbAbortAll_inv st hInv
      · exact hInv

theorem tbRun_inv (ops : List TbOp) : TbInv (tbRun ops) := by
  have hgen : ∀ (l : List TbOp) (st : TbState), TbInv st →
      TbInv (l.foldl (fun st op => tbApply op st) st) := by
    intro l
    induction l with
    | nil => intro st h; exact h
    | cons op l ih =>
      intro st h
      exact ih _ (tbApply_inv op st h)
  exact hgen ops tb_zero ⟨by simp [tb_zero], by simp [tb_zero, TB_MAX_INFLIGHT]⟩

/-- C8: in every state of the BLOCKS transport reachable by any sequence of
`TB_Init`, `TB_BeginBurst`, `TB_EnqueueBlock`, `TB_Pump`, `TB_OnAckBlk`,
`TB_OnNackBlk`, `TB_EndBurst` calls, the number of inflight blocks is at
most the window and at most 8. -/
theorem tb_inflight_bounded (ops : List TbOp) :
    (tbRun ops).inflight.length ≤ (tbRun ops).window ∧
    (tbRun ops).inflight.length ≤ 8 :=
  ⟨(tbRun_inv ops).1, Nat.le_trans (tbRun_inv ops).1 (tbRun_inv ops).2⟩

/-! ## calculate_median_int16 / quickselect_int16 (Core/Src/burst_mgr.c)

The int16 array is embedded as a `List ℤ`; `swap_int16` becomes `listSwap`,
the Lomuto partition loop becomes `partLoop`, and the iterative narrowing
`while` of `quickselect_int16` becomes well-founded recursion on
`high - low`.  C's `int32` division `/ 2` truncates toward zero, i.e.
`Int.tdiv`; the final `(int16_t)` cast is `toInt16`. -/

def listSwap (l : List ℤ) (i j : ℕ) : List ℤ :=
  (l.set i (l.getD j 0)).set j (l.getD i 0)

def partLoop (pivot : ℤ) (high : ℕ) (i j : ℕ) (arr : List ℤ) : ℕ × List ℤ :=
  if j < high then
    if arr.getD j 0 < pivot then
      partLoop pivot high (i + 1) (j + 1) (listSwap arr i j)
    else
      partLoop pivot high i (j + 1) arr
  else
    (i, listSwap arr i high)
termination_by high - j

theorem listSwap_length (l : List ℤ) (i j : ℕ) :
    (listSwap l i j).length = l.length := by
  simp [listSwap]

theorem getD_listSwap_fst (l : List ℤ) (i j : ℕ) (hi : i < l.length)
    (hj : j < l.length) : (listSwap l i j).getD i 0 = l.getD j 0 := by
  unfold listSwap
  by_cases h : i = j
  · subst h
    rw [List.getD_eq_getElem _ _ (by simpa using hi),
      List.getElem_set_self, List.getD_eq_getElem _ _ hi]
  · rw [List.getD_eq_getElem _ _ (by simpa using hi),
      List.getElem_set_ne (fun hh => h hh.symm), List.getElem_set_self,
      List.getD_eq_getElem _ _ hj]

theorem getD_listSwap_snd (l : List ℤ) (i j : ℕ) (hi : i < l.length)
    (hj : j < l.length) : (listSwap l i j).getD j 0 = l.getD i 0 := by
  unfold listSwap
  rw [List.getD_eq_getElem _ _ (by simpa using hj), List.getElem_set_self,
    List.getD_eq_getElem _ _ hi]

theorem getD_listSwap_other (l : List ℤ) (i j t : ℕ) (hti : t ≠ i) (htj : t ≠ j) :
    (listSwap l i j).getD t 0 = l.getD t 0 := by
  unfold listSwap
  by_cases ht : t < l.length
  · rw [List.getD_eq_getElem _ _ (by simpa using ht),
      List.getElem_set_ne (fun hh => htj hh.symm),
      List.getElem_set_ne (fun hh => hti hh.symm), List.getD_eq_getElem _ _ ht]
  · rw [List.getD_eq_default _ _ (by simpa using Nat.le_of_not_lt ht),
      List.getD_eq_default _ _ (by simpa using Nat.le_of_not_lt ht)]

theorem cons_middle_perm (x y : ℤ) (A B : List ℤ) :
    List.Perm (x :: (A ++ y :: B)) (y :: (A ++ x :: B)) := by
  have h1 : List.Perm (A ++ y :: B) (y :: (A ++ B)) := List.perm_middle
  have h2 : List.Perm (A ++ x :: B) (x :: (A ++ B)) := List.perm_middle
  exact ((h1.cons x).trans (List.Perm.swap y x (A ++ B))).trans (h2.cons y).symm

theorem set_self_getD (l : List ℤ) (i : ℕ) (hi : i < l.length) :
    l.set i (l.getD i 0) = l := by
  apply List.ext_getElem (by simp)
  intro t h1 h2
  rw [List.getElem_set]
  split
  · rename_i ht
    subst ht
    rw [List.getD_eq_getElem _ _ hi]
  · rfl

theorem take_set_of_lt (l : List ℤ) (p q : ℕ) (a : ℤ) (hpq : p < q) :
    (l.set p a).take q = (l.take q).set p a := by
  apply List.ext_getElem (by simp)
  intro t h1 h2
  rw [List.getElem_take, List.getElem_set, List.getElem_set]
  split
  · rfl
  · rw [List.getElem_take]

theorem getD_take_lt (l : List ℤ) (p q : ℕ) (hpq : p < q) (hp : p < l.length) :
    (l.take q).getD p 0 = l.getD p 0 := by
  rw [List.getD_eq_getElem _ _ (by simp; omega), List.getElem_take,
    List.getD_eq_getElem _ _ hp]

theorem listSwap_perm_lt (l : List ℤ) (p q : ℕ) (hpq : p < q) (hq : q < l.length) :
    List.Perm (listSwap l p q) l := by
  have hp : p < l.length := Nat.lt_trans hpq hq
  have hTlen : p < (l.take q).length := by simp; omega
  have key : listSwap l p q
      = ((l.take q).set p (l.getD q 0)) ++ l.getD p 0 :: l.drop (q + 1) := by
    unfold listSwap
    rw [List.set_eq_take_cons_drop _ (by simpa using hq)]
    rw [List.drop_set]
    rw [if_pos (Nat.lt_succ_of_lt hpq)]
    rw [take_set_of_lt l p q _ hpq]
  have hdecompT : (l.take q).set p (l.getD q 0)
      = (l.take q).take p ++ l.getD q 0 :: (l.take q).drop (p + 1) :=
    List.set_eq_take_cons_drop _ hTlen
  have hldecomp : l = l.take q ++ l.getD q 0 :: l.drop (q + 1) := by
    conv_lhs => rw [← set_self_getD l q hq]
    exact List.set_eq_take_cons_drop _ hq
  have hTdecomp : l.take q
      = (l.take q).take p ++ l.getD p 0 :: (l.take q).drop (p + 1) := by
    conv_lhs => rw [← set_self_getD (l.take q) p hTlen]
    rw [List.set_eq_take_cons_drop _ hTlen, getD_take_lt l p q hpq hp]
  rw [key, hdecompT]
  conv_rhs => rw [hldecomp, hTdecomp]
  rw [List.append_assoc, List.append_assoc, List.cons_append, List.cons_append]
  exact List.Perm.append_left _ (cons_middle_perm _ _ _ _)

theorem listSwap_perm (l : List ℤ) (p q : ℕ) (hp : p < l.length)
    (hq : q < l.length) : List.Perm (listSwap l p q) l := by
  rcases Nat.lt_trichotomy p q with hlt | heq | hgt
  · exact listSwap_perm_lt l p q hlt hq
  · subst heq
    unfold listSwap
    rw [List.set_set, set_self_getD l p hp]
  · have hcomm : listSwap l p q = listSwap l q p := by
      unfold listSwap
      exact List.set_comm _ _ _ (Nat.ne_of_gt hgt)
    rw [hcomm]
    exact listSwap_perm_lt l q p hgt hp

/-- The array segment `arr[low..high]` (inclusive). -/
def win (arr : List ℤ) (low high : ℕ) : List ℤ :=
  (arr.drop low).take (high + 1 - low)

/-- The reference order: insertion sort from Mathlib, whose output is sorted
and a permutation of the input. -/
def sortedOf (l : List ℤ) : List ℤ := List.insertionSort (· ≤ ·) l

theorem win_length (arr : List ℤ) (low high : ℕ) (hlh : low ≤ high)
    (hh : high < arr.length) : (win arr low high).length = high + 1 - low := by
  simp [win]
  omega

theorem win_getD (arr : List ℤ) (low high t : ℕ) (ht : t < high + 1 - low)
    (hh : high < arr.length) :
    (win arr low high).getD t 0 = arr.getD (low + t) 0 := by
  unfold win
  rw [List.getD_eq_getElem _ _ (by simp; omega), List.getElem_take,
    List.getElem_drop, List.getD_eq_getElem _ _ (by omega)]

theorem win_full (arr : List ℤ) (hne : arr ≠ []) :
    win arr 0 (arr.length - 1) = arr := by
  have hlen : 1 ≤ arr.length := by
    cases arr with
    | nil => exact absurd rfl hne
    | cons a t => simp
  unfold win
  rw [List.drop_zero]
  have : arr.length - 1 + 1 - 0 = arr.length := by omega
  rw [this, List.take_length]

theorem win_decomp (arr : List ℤ) (low high : ℕ) (hlh : low ≤ high)
    (hh : high < arr.length) :
    arr = arr.take low ++ win arr low high ++ arr.drop (high + 1) := by
  conv_lhs => rw [← List.take_append_drop low arr]
  rw [List.append_assoc]
  congr 1
  conv_lhs => rw [← List.take_append_drop (high + 1 - low) (arr.drop low)]
  unfold win
  congr 1
  rw [List.drop_drop]
  congr 1
  omega

theorem win_split (arr : List ℤ) (low mid high : ℕ) (hlm : low ≤ mid)
    (hmh : mid < high) (hh : high < arr.length) :
    win arr low high = win arr low mid ++ win arr (mid + 1) high := by
  unfold win
  have harith : high + 1 - low = (mid + 1 - low) + (high - mid) := by omega
  rw [harith, List.take_add, List.drop_drop]
  congr 2
  · omega
  · congr 1
    omega

theorem win_perm_of_eq_outside (b a : List ℤ) (low high : ℕ) (hlh : low ≤ high)
    (hha : high < a.length) (hlen : b.length = a.length)
    (hout : ∀ t, t < low ∨ high < t → b.getD t 0 = a.getD t 0)
    (hperm : List.Perm b a) :
    List.Perm (win b low high) (win a low high) := by
  have hhb : high < b.length := by omega
  have htake : b.take low = a.take low := by
    apply List.ext_getElem (by simp [hlen])
    intro t h1 h2
    have htl : t < low := by simp at h1; omega
    have htb : t < b.length := by simp at h1; omega
    have hta : t < a.length := by omega
    rw [List.getElem_take, List.getElem_take]
    rw [← List.getD_eq_getElem b 0 htb, ← List.getD_eq_getElem a 0 hta]
    exact hout t (Or.inl htl)
  have hdrop : b.drop (high + 1) = a.drop (high + 1) := by
    apply List.ext_getElem (by simp [hlen])
    intro t h1 h2
    have htb : high + 1 + t < b.length := by simp at h1; omega
    have hta : high + 1 + t < a.length := by omega
    rw [List.getElem_drop, List.getElem_drop]
    rw [← List.getD_eq_getElem b 0 htb, ← List.getD_eq_getElem a 0 hta]
    exact hout _ (Or.inr (by omega))
  have hmb := Multiset.coe_eq_coe.mpr hperm
  rw [win_decomp b low high hlh hhb, win_decomp a low high hlh hha] at hmb
  rw [← Multiset.coe_add, ← Multiset.coe_add, ← Multiset.coe_add,
    ← Multiset.coe_add, htake, hdrop] at hmb
  exact Multiset.coe_eq_coe.mp (add_left_cancel (add_right_cancel hmb))

theorem listSwap_win_perm (arr : List ℤ) (low high a b : ℕ)
    (hla : low ≤ a) (hah : a ≤ high) (hlb : low ≤ b) (hbh : b ≤ high)
    (hh : high < arr.length) :
    List.Perm (win (listSwap arr a b) low high) (win arr low high) := by
  apply win_perm_of_eq_outside _ _ low high (Nat.le_trans hla hah) hh
    (listSwap_length arr a b)
  · intro t ht
    exact getD_listSwap_other arr a b t (by omega) (by omega)
  · exact listSwap_perm arr a b (by omega) (by omega)

theorem partLoop_bounds : ∀ (fuel : ℕ) (pivot : ℤ) (high i j : ℕ) (arr : List ℤ),
    high - j ≤ fuel → i ≤ j → j ≤ high →
    i ≤ (partLoop pivot high i j arr).1 ∧ (partLoop pivot high i j arr).1 ≤ high := by
  intro fuel
  induction fuel with
  | zero =>
    intro pivot high i j arr hm hij hjh
    rw [partLoop, if_neg (by omega)]
    exact ⟨Nat.le_refl i, by omega⟩
  | succ fuel ih =>
    intro pivot high i j arr hm hij hjh
    rw [partLoop]
    by_cases hj : j < high
    · rw [if_pos hj]
      split
      · have := ih pivot high (i + 1) (j + 1) (listSwap arr i j)
          (by omega) (by omega) (by omega)
        exact ⟨by omega, this.2⟩
      · exact ih pivot high i (j + 1) arr (by omega) (by omega) (by omega)
    · rw [if_neg hj]
      exact ⟨Nat.le_refl i, by omega⟩

def quickselect_int16 (arr : List ℤ) (low high k : ℕ) : ℤ × List ℤ :=
  if high < low then (-32768, arr)
  else if low = high then (arr.getD low 0, arr)
  else if k = (partLoop (arr.getD (low + (high - low) / 2) 0) high low low
      (listSwap arr (low + (high - low) / 2) high)).1 then
    ((partLoop (arr.getD (low + (high - low) / 2) 0) high low low
        (listSwap arr (low + (high - low) / 2) high)).2.getD
      (partLoop (arr.getD (low + (high - low) / 2) 0) high low low
        (listSwap arr (low + (high - low) / 2) high)).1 0,
     (partLoop (arr.getD (low + (high - low) / 2) 0) high low low
        (listSwap arr (low + (high - low) / 2) high)).2)
  else if k < (partLoop (arr.getD (low + (high - low) / 2) 0) high low low
      (listSwap arr (low + (high - low) / 2) high)).1 then
    quickselect_int16
      (partLoop (arr.getD (low + (high - low) / 2) 0) high low low
        (listSwap arr (low + (high - low) / 2) high)).2
      low
      ((partLoop (arr.getD (low + (high - low) / 2) 0) high low low
        (listSwap arr (low + (high - low) / 2) high)).1 - 1)
      k
  else
    quickselect_int16
      (partLoop (arr.getD (low + (high - low) / 2) 0) high low low
        (listSwap arr (low + (high - low) / 2) high)).2
      ((partLoop (arr.getD (low + (high - low) / 2) 0) high low low
        (listSwap arr (low + (high - low) / 2) high)).1 + 1)
      high
      k
termination_by high - low
decreasing_by
  · have hb := partLoop_bounds (high - low)
      (arr.getD (low + (high - low) / 2) 0) high low low
      (listSwap arr (low + (high - low) / 2) high)
      (Nat.le_refl _) (Nat.le_refl low) (by omega)
    omega
  · have hb := partLoop_bounds (high - low)
      (arr.getD (low + (high - low) / 2) 0) high low low
      (listSwap arr (low + (high - low) / 2) high)
      (Nat.le_refl _) (Nat.le_refl low) (by omega)
    omega

theorem partLoop_spec : ∀ (fuel : ℕ) (pivot : ℤ) (low high i j : ℕ) (arr : List ℤ),
    high - j ≤ fuel →
    low ≤ i → i ≤ j → j ≤ high → high < arr.length →
    arr.getD high 0 = pivot →
    (∀ t, low ≤ t → t < i → arr.getD t 0 < pivot) →
    (∀ t, i ≤ t → t < j → pivot ≤ arr.getD t 0) →
    (partLoop pivot high i j arr).2.length = arr.length ∧
    (∀ t, t < low ∨ high < t →
      (partLoop pivot high i j arr).2.getD t 0 = arr.getD t 0) ∧
    List.Perm (partLoop pivot high i j arr).2 arr ∧
    (∀ t, low ≤ t → t < (partLoop pivot high i j arr).1 →
      (partLoop pivot high i j arr).2.getD t 0 < pivot) ∧
    (partLoop pivot high i j arr).2.getD (partLoop pivot high i j arr).1 0 = pivot ∧
    (∀ t, (partLoop pivot high i j arr).1 < t → t ≤ high →
      pivot ≤ (partLoop pivot high i j arr).2.getD t 0) := by
  intro fuel
  induction fuel with
  | zero =>
    intro pivot low high i j arr hm hli hij hjh hh hpiv h1 h2
    have hje : j = high := by omega
    subst hje
    rw [partLoop, if_neg (by omega)]
    have hil : i < arr.length := by omega
    have hjl : j < arr.length := hh
    refine ⟨listSwap_length arr i j, ?_, listSwap_perm arr i j hil hjl, ?_, ?_, ?_⟩
    · intro t ht
      exact getD_listSwap_other arr i j t (by omega) (by omega)
    · intro t hlt hti
      rw [getD_listSwap_other arr i j t (by omega) (by omega)]
      exact h1 t hlt hti
    · rw [getD_listSwap_fst arr i j hil hjl]
      exact hpiv
    · intro t hit htj
      by_cases htj2 : t = j
      · subst htj2
        rw [getD_listSwap_snd arr i t hil hjl]
        exact h2 i (Nat.le_refl i) (by omega)
      · rw [getD_listSwap_other arr i j t (by omega) htj2]
        exact h2 t (by omega) (by omega)
  | succ fuel ih =>
    intro pivot low high i j arr hm hli hij hjh hh hpiv h1 h2
    by_cases hj : j < high
    · rw [partLoop, if_pos hj]
      by_cases hcmp : arr.getD j 0 < pivot
      · rw [if_pos hcmp]
        have hil : i < arr.length := by omega
        have hjl : j < arr.length := by omega
        have hrec := ih pivot low high (i + 1) (j + 1) (listSwap arr i j)
          (by omega) (by omega) (by omega) (by omega)
          (by rw [listSwap_length]; omega)
          (by rw [getD_listSwap_other arr i j high (by omega) (by omega)]; exact hpiv)
          (by
            intro t hlt hti
            by_cases hti2 : t = i
            · subst hti2
              rw [getD_listSwap_fst arr t j hil hjl]
              exact hcmp
            · rw [getD_listSwap_other arr i j t hti2 (by omega)]
              exact h1 t hlt (by omega))
          (by
            intro t hit htj
            by_cases htj2 : t = j
            · subst htj2
              rw [getD_listSwap_snd arr i t hil hjl]
              exact h2 i (Nat.le_refl i) (by omega)
            · rw [getD_listSwap_other arr i j t (by omega) htj2]
              exact h2 t (by omega) (by omega))
        refine ⟨by rw [hrec.1, listSwap_length], ?_,
          hrec.2.2.1.trans (listSwap_perm arr i j hil hjl),
          hrec.2.2.2.1, hrec.2.2.2.2.1, hrec.2.2.2.2.2⟩
        intro t ht
        rw [hrec.2.1 t ht, getD_listSwap_other arr i j t (by omega) (by omega)]
      · rw [if_neg hcmp]
        exact ih pivot low high i (j + 1) arr (by omega) hli (by omega) (by omega)
          hh hpiv h1
          (by
            intro t hit htj
            by_cases htj2 : t = j
            · subst htj2
              omega
            · exact h2 t hit (by omega))
    · rw [partLoop, if_neg hj]
      have hje : j = high := by omega
      subst hje
      have hil : i < arr.length := by omega
      refine ⟨listSwap_length arr i j, ?_, listSwap_perm arr i j hil hh, ?_, ?_, ?_⟩
      · intro t ht
        exact getD_listSwap_other arr i j t (by omega) (by omega)
      · intro t hlt hti
        rw [getD_listSwap_other arr i j t (by omega) (by omega)]
        exact h1 t hlt hti
      · rw [getD_listSwap_fst arr i j hil hh]
        exact hpiv
      · intro t hit htj
        by_cases htj2 : t = j
        · subst htj2
          rw [getD_listSwap_snd arr i t hil hh]
          exact h2 i (Nat.le_refl i) (by omega)
        · rw [getD_listSwap_other arr i j t (by omega) htj2]
          exact h2 t (by omega) (by omega)

theorem sortedOf_sorted (l : List ℤ) : (sortedOf l).Sorted (· ≤ ·) :=
  List.sorted_insertionSort (· ≤ ·) l

theorem sortedOf_perm (l : List ℤ) : List.Perm (sortedOf l) l :=
  List.perm_insertionSort (· ≤ ·) l

theorem sortedOf_length (l : List ℤ) : (sortedOf l).length = l.length :=
  (sortedOf_perm l).length_eq

theorem mem_sortedOf (l : List ℤ) (x : ℤ) : x ∈ sortedOf l ↔ x ∈ l :=
  (sortedOf_perm l).mem_iff

theorem sortedOf_perm_eq (l1 l2 : List ℤ) (h : List.Perm l1 l2) :
    sortedOf l1 = sortedOf l2 :=
  List.eq_of_perm_of_sorted
    ((sortedOf_perm l1).trans (h.trans (sortedOf_perm l2).symm))
    (sortedOf_sorted l1) (sortedOf_sorted l2)

theorem sortedOf_append_of_le (A B : List ℤ) (h : ∀ a ∈ A, ∀ b ∈ B, a ≤ b) :
    sortedOf (A ++ B) = sortedOf A ++ sortedOf B :=
  List.eq_of_perm_of_sorted
    ((sortedOf_perm _).trans
      (List.Perm.append (sortedOf_perm A).symm (sortedOf_perm B).symm))
    (sortedOf_sorted _)
    (List.pairwise_append.mpr ⟨sortedOf_sorted A, sortedOf_sorted B,
      fun a ha b hb => h a ((mem_sortedOf A a).mp ha) b ((mem_sortedOf B b).mp hb)⟩)

theorem sortedOf_cons_of_le (pv : ℤ) (S : List ℤ) (h : ∀ b ∈ S, pv ≤ b) :
    sortedOf (pv :: S) = pv :: sortedOf S :=
  List.eq_of_perm_of_sorted
    ((sortedOf_perm _).trans (List.Perm.cons pv (sortedOf_perm S).symm))
    (sortedOf_sorted _)
    (List.pairwise_cons.mpr
      ⟨fun b hb => h b ((mem_sortedOf S b).mp hb), sortedOf_sorted S⟩)

theorem win_cons (arr : List ℤ) (i high : ℕ) (hih : i ≤ high)
    (hh : high < arr.length) :
    win arr i high = arr.getD i 0 :: win arr (i + 1) high := by
  unfold win
  rw [List.drop_eq_getElem_cons (by omega : i < arr.length),
    show high + 1 - i = (high + 1 - (i + 1)) + 1 by omega, List.take_succ_cons,
    List.getD_eq_getElem _ _ (by omega)]

theorem win_split_left (arr : List ℤ) (low i high : ℕ) (hli : low ≤ i)
    (hih : i ≤ high) :
    win arr low high = (arr.drop low).take (i - low) ++ win arr i high := by
  unfold win
  rw [show high + 1 - low = (i - low) + (high + 1 - i) by omega, List.take_add,
    List.drop_drop, show low + (i - low) = i by omega]

theorem mem_win_iff (arr : List ℤ) (low high : ℕ) (x : ℤ) (hlh : low ≤ high)
    (hh : high < arr.length) :
    x ∈ win arr low high ↔ ∃ t, low ≤ t ∧ t ≤ high ∧ arr.getD t 0 = x := by
  have hwl : (win arr low high).length = high + 1 - low :=
    win_length arr low high hlh hh
  rw [List.mem_iff_getElem]
  constructor
  · rintro ⟨n, hn, he⟩
    have hg := win_getD arr low high n (by omega) hh
    rw [List.getD_eq_getElem _ _ hn, he] at hg
    exact ⟨low + n, by omega, by omega, hg.symm⟩
  · rintro ⟨t, hlt, hth, he⟩
    have hg := win_getD arr low high (t - low) (by omega) hh
    rw [show low + (t - low) = t by omega, he] at hg
    rw [List.getD_eq_getElem _ _ (by omega)] at hg
    exact ⟨t - low, by omega, hg⟩

theorem quickselect_spec : ∀ (fuel : ℕ) (arr : List ℤ) (low high k : ℕ),
    high - low ≤ fuel →
    low ≤ k → k ≤ high → high < arr.length →
    (quickselect_int16 arr low high k).2.length = arr.length ∧
    (∀ t, t < low ∨ high < t →
      (quickselect_int16 arr low high k).2.getD t 0 = arr.getD t 0) ∧
    List.Perm (quickselect_int16 arr low high k).2 arr ∧
    (quickselect_int16 arr low high k).1
      = (sortedOf (win arr low high)).getD (k - low) 0 ∧
    (∀ p q, low ≤ p → p ≤ k → k < q → q ≤ high →
      (quickselect_int16 arr low high k).2.getD p 0
        ≤ (quickselect_int16 arr low high k).2.getD q 0) := by
  intro fuel
  induction fuel with
  | zero =>
    intro arr low high k hm hlk hkh hh
    have hkl : low = k := by omega
    have hhl : low = high := by omega
    subst hkl hhl
    rw [quickselect_int16, if_neg (by omega), if_pos rfl]
    refine ⟨rfl, fun t ht => rfl, List.Perm.refl arr, ?_, ?_⟩
    · have h0 : win arr (low + 1) low = [] := by
        unfold win
        rw [show low + 1 - (low + 1) = 0 from by omega, List.take_zero]
      have hw : win arr low low = [arr.getD low 0] := by
        rw [win_cons arr low low (Nat.le_refl low) hh, h0]
      rw [hw, show sortedOf [arr.getD low 0] = [arr.getD low 0] from rfl,
        show low - low = 0 from by omega, List.getD_cons_zero]
    · intro p q hp hpk hkq hqh
      omega
  | succ fuel ih =>
    intro arr low high k hm hlk hkh hh
    by_cases hedge : low = high
    · exact ih arr low high k (by omega) hlk hkh hh
    have hlow : low < high := by omega
    have hpl : low + (high - low) / 2 < arr.length := by omega
    have hb := partLoop_bounds (high - low)
      (arr.getD (low + (high - low) / 2) 0) high low low
      (listSwap arr (low + (high - low) / 2) high)
      (Nat.le_refl _) (Nat.le_refl low) (by omega)
    have hps := partLoop_spec (high - low)
      (arr.getD (low + (high - low) / 2) 0) low high low low
      (listSwap arr (low + (high - low) / 2) high)
      (Nat.le_refl _) (Nat.le_refl low) (Nat.le_refl low) (by omega)
      (by rw [listSwap_length]; omega)
      (getD_listSwap_snd arr (low + (high - low) / 2) high hpl hh)
      (fun t h1 h2 => absurd h2 (by omega))
      (fun t h1 h2 => absurd h2 (by omega))
    rw [quickselect_int16, if_neg (show ¬ high < low by omega), if_neg hedge]
    generalize hr : partLoop (arr.getD (low + (high - low) / 2) 0) high low low
      (listSwap arr (low + (high - low) / 2) high) = r
    rw [hr] at hb hps
    obtain ⟨hlen0, hout0, hperm0, hL, hM, hR⟩ := hps
    have hlen2 : r.2.length = arr.length := by
      rw [hlen0, listSwap_length]
    have hout2 : ∀ t, t < low ∨ high < t → r.2.getD t 0 = arr.getD t 0 := by
      intro t ht
      rw [hout0 t ht,
        getD_listSwap_other arr (low + (high - low) / 2) high t (by omega) (by omega)]
    have hperm2 : List.Perm r.2 arr :=
      hperm0.trans (listSwap_perm arr (low + (high - low) / 2) high hpl hh)
    have hwperm : List.Perm (win r.2 low high) (win arr low high) :=
      win_perm_of_eq_outside r.2 arr low high (by omega) hh hlen2 hout2 hperm2
    have hPwin : win r.2 low high =
        (r.2.drop low).take (r.1 - low) ++ r.2.getD r.1 0 :: win r.2 (r.1 + 1) high := by
      rw [win_split_left r.2 low r.1 high hb.1 hb.2,
        win_cons r.2 r.1 high hb.2 (by omega)]
    have hPlt : ∀ a ∈ (r.2.drop low).take (r.1 - low),
        a < arr.getD (low + (high - low) / 2) 0 := by
      intro a ha
      rw [List.mem_iff_getElem] at ha
      obtain ⟨n, hn, he⟩ := ha
      have hn2 : n < r.1 - low := by
        have := hn
        rw [List.length_take] at this
        omega
      rw [List.getElem_take, List.getElem_drop] at he
      have hg := hL (low + n) (by omega) (by omega)
      rw [List.getD_eq_getElem _ _ (by omega), he] at hg
      exact hg
    have hSge : ∀ b ∈ win r.2 (r.1 + 1) high,
        arr.getD (low + (high - low) / 2) 0 ≤ b := by
      intro b hbm
      rcases Nat.lt_or_ge r.1 high with hrh | hrh
      · rw [mem_win_iff r.2 (r.1 + 1) high b (by omega) (by omega)] at hbm
        obtain ⟨t, h1, h2, h3⟩ := hbm
        rw [← h3]
        exact hR t (by omega) h2
      · exfalso
        have hr1 : r.1 = high := by omega
        rw [hr1] at hbm
        unfold win at hbm
        rw [show high + 1 - (high + 1) = 0 from by omega, List.take_zero] at hbm
        exact List.not_mem_nil b hbm
    have hcentral : sortedOf (win arr low high) =
        sortedOf ((r.2.drop low).take (r.1 - low)) ++
          arr.getD (low + (high - low) / 2) 0 ::
            sortedOf (win r.2 (r.1 + 1) high) := by
      rw [← sortedOf_perm_eq _ _ hwperm, hPwin, hM,
        sortedOf_append_of_le _ _ ?ha, sortedOf_cons_of_le _ _ hSge]
      case ha =>
        intro a ha b hbm
        rcases List.mem_cons.mp hbm with hb1 | hb2
        · rw [hb1]
          exact le_of_lt (hPlt a ha)
        · exact le_trans (le_of_lt (hPlt a ha)) (hSge b hb2)
    have hPlen : ((r.2.drop low).take (r.1 - low)).length = r.1 - low := by
      rw [List.length_take, List.length_drop, hlen2]
      omega
    have hsortPlen : (sortedOf ((r.2.drop low).take (r.1 - low))).length = r.1 - low := by
      rw [sortedOf_length, hPlen]
    by_cases hki : k = r.1
    · rw [if_pos hki]
      refine ⟨hlen2, hout2, hperm2, ?_, ?_⟩
      · rw [hM, hcentral,
          List.getD_append_right _ _ _ _ (by rw [hsortPlen]; omega),
          show k - low - (sortedOf ((r.2.drop low).take (r.1 - low))).length = 0
            from by rw [hsortPlen]; omega,
          List.getD_cons_zero]
      · intro p q hp hpk hkq hqh
        rcases Nat.lt_or_ge p r.1 with hpi | hpi
        · exact le_trans (le_of_lt (hL p hp hpi)) (hR q (by omega) hqh)
        · have hpe : p = r.1 := by omega
          rw [hpe, hM]
          exact hR q (by omega) hqh
    · by_cases hki2 : k < r.1
      · rw [if_neg hki, if_pos hki2]
        obtain ⟨hA, hB, hC, hD, hE⟩ :=
          ih r.2 low (r.1 - 1) k (by omega) hlk (by omega) (by omega)
        refine ⟨by rw [hA, hlen2], ?_, hC.trans hperm2, ?_, ?_⟩
        · intro t ht
          rw [hB t (by omega), hout2 t ht]
        · have hPw : win r.2 low (r.1 - 1) = (r.2.drop low).take (r.1 - low) := by
            unfold win
            congr 1
            omega
          rw [hD, hPw, hcentral,
            List.getD_append _ _ _ _ (by rw [hsortPlen]; omega)]
        · intro p q hp hpk hkq hqh
          rcases Nat.lt_or_ge q r.1 with hqr | hqr
          · exact hE p q hp hpk hkq (by omega)
          · have hq2 : (quickselect_int16 r.2 low (r.1 - 1) k).2.getD q 0
                = r.2.getD q 0 := hB q (by omega)
            have hq3 : arr.getD (low + (high - low) / 2) 0
                ≤ (quickselect_int16 r.2 low (r.1 - 1) k).2.getD q 0 := by
              rw [hq2]
              rcases Nat.lt_or_ge r.1 q with h1 | h1
              · exact hR q h1 hqh
              · have hqe : q = r.1 := by omega
                rw [hqe, hM]
            have hmem : (quickselect_int16 r.2 low (r.1 - 1) k).2.getD p 0
                ∈ win (quickselect_int16 r.2 low (r.1 - 1) k).2 low (r.1 - 1) := by
              rw [mem_win_iff _ low (r.1 - 1) _ (by omega)
                (by rw [hA, hlen2]; omega)]
              exact ⟨p, hp, by omega, rfl⟩
            have hwrec : List.Perm
                (win (quickselect_int16 r.2 low (r.1 - 1) k).2 low (r.1 - 1))
                (win r.2 low (r.1 - 1)) :=
              win_perm_of_eq_outside _ r.2 low (r.1 - 1) (by omega) (by omega)
                hA hB hC
            have hmem2 := hwrec.mem_iff.mp hmem
            rw [mem_win_iff r.2 low (r.1 - 1) _ (by omega) (by omega)] at hmem2
            obtain ⟨t, ht1, ht2, ht3⟩ := hmem2
            have hlt := hL t ht1 (by omega)
            rw [ht3] at hlt
            exact le_trans (le_of_lt hlt) hq3
      · rw [if_neg hki, if_neg hki2]
        have hkgt : r.1 < k := by omega
        obtain ⟨hA, hB, hC, hD, hE⟩ :=
          ih r.2 (r.1 + 1) high k (by omega) (by omega) hkh (by omega)
        refine ⟨by rw [hA, hlen2], ?_, hC.trans hperm2, ?_, ?_⟩
        · intro t ht
          rw [hB t (by omega), hout2 t ht]
        · rw [hD, hcentral,
            List.getD_append_right _ _ _ _ (by rw [hsortPlen]; omega),
            show k - low - (sortedOf ((r.2.drop low).take (r.1 - low))).length
                = (k - (r.1 + 1)) + 1 from by rw [hsortPlen]; omega,
            List.getD_cons_succ]
        · intro p q hp hpk hkq hqh
          rcases Nat.lt_or_ge p (r.1 + 1) with hpr | hpr
          · have hp2 : (quickselect_int16 r.2 (r.1 + 1) high k).2.getD p 0
                = r.2.getD p 0 := hB p (by omega)
            have hple : (quickselect_int16 r.2 (r.1 + 1) high k).2.getD p 0
                ≤ arr.getD (low + (high - low) / 2) 0 := by
              rw [hp2]
              rcases Nat.lt_or_ge p r.1 with h1 | h1
              · exact le_of_lt (hL p hp h1)
              · have hpe : p = r.1 := by omega
                rw [hpe, hM]
            have hmem : (quickselect_int16 r.2 (r.1 + 1) high k).2.getD q 0
                ∈ win (quickselect_int16 r.2 (r.1 + 1) high k).2 (r.1 + 1) high := by
              rw [mem_win_iff _ (r.1 + 1) high _ (by omega)
                (by rw [hA, hlen2]; omega)]
              exact ⟨q, by omega, hqh, rfl⟩
            have hwrec : List.Perm
                (win (quickselect_int16 r.2 (r.1 + 1) high k).2 (r.1 + 1) high)
                (win r.2 (r.1 + 1) high) :=
              win_perm_of_eq_outside _ r.2 (r.1 + 1) high (by omega) (by omega)
                hA hB hC
            have hmem2 := hwrec.mem_iff.mp hmem
            rw [mem_win_iff r.2 (r.1 + 1) high _ (by omega) (by omega)] at hmem2
            obtain ⟨t, ht1, ht2, ht3⟩ := hmem2
            have hge := hR t (by omega) ht2
            rw [ht3] at hge
            exact le_trans hple hge
          · exact hE p q hpr hpk hkq hqh

/-- The int16_t cast applied to the averaged pair in calculate_median_int16:
two's-complement wrap of an integer into [-32768, 32767]. -/
def toInt16 (x : ℤ) : ℤ := (x + 32768) % 65536 - 32768

/-- Shallow embedding of calculate_median_int16 (burst_mgr.c): size 0 gives 0,
size 1 gives data[0], odd sizes one quickselect at rank size/2, even sizes two
quickselects at ranks size/2-1 and size/2 (the second on the array state left
by the first, over [mid1_idx+1, size-1]), averaged with C truncating division
and cast back to int16_t. -/
def calculate_median_int16 (data : List ℤ) : ℤ :=
  if data.length = 0 then 0
  else if data.length = 1 then data.getD 0 0
  else if data.length % 2 = 1 then
    (quickselect_int16 data 0 (data.length - 1) (data.length / 2)).1
  else
    toInt16 (Int.tdiv
      ((quickselect_int16 data 0 (data.length - 1) (data.length / 2 - 1)).1 +
        (quickselect_int16
          (quickselect_int16 data 0 (data.length - 1) (data.length / 2 - 1)).2
          (data.length / 2 - 1 + 1) (data.length - 1) (data.length / 2)).1)
      2)

theorem toInt16_id (y : ℤ) (h1 : -32768 ≤ y) (h2 : y ≤ 32767) : toInt16 y = y := by
  unfold toInt16
  omega

theorem tdiv2_bounds (x : ℤ) (h1 : -65536 ≤ x) (h2 : x ≤ 65534) :
    -32768 ≤ Int.tdiv x 2 ∧ Int.tdiv x 2 ≤ 32767 := by
  rcases le_or_lt 0 x with hx | hx
  · rw [Int.tdiv_eq_ediv hx (by norm_num)]
    omega
  · have hneg : Int.tdiv x 2 = -(Int.tdiv (-x) 2) := by
      rw [← Int.neg_tdiv, neg_neg]
    rw [hneg, Int.tdiv_eq_ediv (by omega) (by norm_num)]
    omega

theorem getD_mem (l : List ℤ) (n : ℕ) (h : n < l.length) : l.getD n 0 ∈ l := by
  rw [List.getD_eq_getElem _ _ h]
  exact List.getElem_mem h

/-- C9: calculate_median_int16 on int16-ranged data returns 0 for an empty
array; for odd n the element of 0-based rank n/2 of the sorted array; and for
even n the truncated-toward-zero average of the elements of ranks n/2-1 and
n/2 of the sorted array. -/
theorem calculate_median_spec (data : List ℤ)
    (hr : ∀ x ∈ data, -32768 ≤ x ∧ x ≤ 32767) :
    calculate_median_int16 data =
      if data.length = 0 then 0
      else if data.length % 2 = 1 then
        (sortedOf data).getD (data.length / 2) 0
      else
        Int.tdiv ((sortedOf data).getD (data.length / 2 - 1) 0
          + (sortedOf data).getD (data.length / 2) 0) 2 := by
  by_cases h0 : data.length = 0
  · rw [calculate_median_int16, if_pos h0, if_pos h0]
  by_cases h1 : data.length = 1
  · rw [calculate_median_int16, if_neg h0, if_pos h1, if_neg h0,
      if_pos (show data.length % 2 = 1 from by omega)]
    cases data with
    | nil => exact absurd rfl h0
    | cons a l =>
      have hl : l = [] := by
        cases l with
        | nil => rfl
        | cons b t => simp at h1
      subst hl
      simp [sortedOf, List.insertionSort, List.orderedInsert]
  rw [calculate_median_int16, if_neg h0, if_neg h1]
  by_cases hodd : data.length % 2 = 1
  · rw [if_pos hodd, if_neg h0, if_pos hodd]
    have hne : data ≠ [] := fun he => h0 (by rw [he]; rfl)
    obtain ⟨hA, hB, hC, hD, hE⟩ := quickselect_spec data.length data 0
      (data.length - 1) (data.length / 2) (by omega) (by omega) (by omega)
      (by omega)
    rw [hD, win_full data hne, Nat.sub_zero]
  · rw [if_neg hodd, if_neg h0, if_neg hodd]
    have hne : data ≠ [] := fun he => h0 (by rw [he]; rfl)
    obtain ⟨hA1, hB1, hC1, hD1, hE1⟩ := quickselect_spec data.length data 0
      (data.length - 1) (data.length / 2 - 1) (by omega) (by omega) (by omega)
      (by omega)
    obtain ⟨hA2, hB2, hC2, hD2, hE2⟩ := quickselect_spec data.length
      (quickselect_int16 data 0 (data.length - 1) (data.length / 2 - 1)).2
      (data.length / 2 - 1 + 1) (data.length - 1) (data.length / 2)
      (by omega) (by omega) (by omega) (by rw [hA1]; omega)
    generalize hq1e : quickselect_int16 data 0 (data.length - 1)
      (data.length / 2 - 1) = r1
    rw [hq1e] at hA1 hB1 hC1 hD1 hE1 hA2 hB2 hC2 hD2 hE2
    generalize hq2e : quickselect_int16 r1.2 (data.length / 2 - 1 + 1)
      (data.length - 1) (data.length / 2) = r2
    rw [hq2e] at hA2 hB2 hC2 hD2 hE2
    have hne1 : r1.2 ≠ [] := by
      intro he
      rw [he] at hA1
      simp at hA1
      omega
    have hg1 : r1.1 = (sortedOf data).getD (data.length / 2 - 1) 0 := by
      rw [hD1, win_full data hne, Nat.sub_zero]
    have hfull1 : win r1.2 0 (data.length - 1) = r1.2 := by
      have hwf := win_full r1.2 hne1
      rw [hA1] at hwf
      exact hwf
    have hAB : ∀ a ∈ win r1.2 0 (data.length / 2 - 1),
        ∀ b ∈ win r1.2 (data.length / 2 - 1 + 1) (data.length - 1), a ≤ b := by
      intro a ha b hb
      rw [mem_win_iff r1.2 0 (data.length / 2 - 1) a (by omega)
        (by rw [hA1]; omega)] at ha
      rw [mem_win_iff r1.2 (data.length / 2 - 1 + 1) (data.length - 1) b
        (by omega) (by rw [hA1]; omega)] at hb
      obtain ⟨p, hp1, hp2, hp3⟩ := ha
      obtain ⟨q, hq1, hq2, hq3⟩ := hb
      rw [← hp3, ← hq3]
      exact hE1 p q (Nat.zero_le p) hp2 (by omega) hq2
    have hsorted_eq : sortedOf data =
        sortedOf (win r1.2 0 (data.length / 2 - 1)) ++
          sortedOf (win r1.2 (data.length / 2 - 1 + 1) (data.length - 1)) := by
      conv_lhs => rw [← sortedOf_perm_eq r1.2 data hC1, ← hfull1,
        win_split r1.2 0 (data.length / 2 - 1) (data.length - 1) (by omega)
          (by omega) (by rw [hA1]; omega)]
      rw [sortedOf_append_of_le _ _ hAB]
    have hlenA : (sortedOf (win r1.2 0 (data.length / 2 - 1))).length
        = data.length / 2 - 1 + 1 - 0 := by
      rw [sortedOf_length, win_length r1.2 0 (data.length / 2 - 1) (by omega)
        (by rw [hA1]; omega)]
    have hg2 : r2.1 = (sortedOf data).getD (data.length / 2) 0 := by
      rw [hD2, hsorted_eq,
        List.getD_append_right _ _ _ _ (by rw [hlenA]; omega),
        show data.length / 2
              - (sortedOf (win r1.2 0 (data.length / 2 - 1))).length
            = data.length / 2 - (data.length / 2 - 1 + 1)
          from by rw [hlenA]; omega]
    rw [hg1, hg2]
    have hm1 : (sortedOf data).getD (data.length / 2 - 1) 0 ∈ data :=
      (mem_sortedOf data _).mp (getD_mem _ _ (by rw [sortedOf_length]; omega))
    have hm2 : (sortedOf data).getD (data.length / 2) 0 ∈ data :=
      (mem_sortedOf data _).mp (getD_mem _ _ (by rw [sortedOf_length]; omega))
    obtain ⟨ha1, ha2⟩ := hr _ hm1
    obtain ⟨hb1, hb2⟩ := hr _ hm2
    have hbd := tdiv2_bounds ((sortedOf data).getD (data.length / 2 - 1) 0
      + (sortedOf data).getD (data.length / 2) 0) (by omega) (by omega)
    exact toInt16_id _ hbd.1 hbd.2

theorem calculate_median_spec_witness :
    (∀ x ∈ [(3:ℤ), -5, 7, 1], -32768 ≤ x ∧ x ≤ 32767) ∧
    calculate_median_int16 [(3:ℤ), -5, 7, 1] = 2 := by
  refine ⟨by decide, ?_⟩
  have h := calculate_median_spec [(3:ℤ), -5, 7, 1] (by decide)
  rw [h]
  decide
